/-
Verification of the mojibake Unicode styling engine.

The JavaScript sources (src/shared/unicode/maps/char-maps.js,
src/shared/unicode/maps/reverse-maps.js, the combining-mark, grapheme and
normalization modules, and the engine in src/content/content.js) are embedded
shallowly: a string is a list of Unicode code points (Nat), and the
host-provided primitives String.prototype.normalize (NFC/NFD) and
Intl.Segmenter (extended grapheme clusters) are modelled by executable
implementations of the Unicode algorithms whose data tables are restricted to
the code points the engine and the claims actually exercise:

  - canonical combining classes: U+0301 (230), U+0328 (202), U+0332 (220),
    U+0336 (1); every other code point is treated as ccc 0;
  - canonical decompositions: U+00E9 = 0065 0301 and U+01EB = 006F 0328
    (U+01EB is the only composite character appearing in any character map);
  - grapheme breaks: CR LF joins, controls break on both sides, code points
    of the Combining Diacritical Marks block U+0300..U+036F extend the
    preceding cluster (this covers every combining mark the engine manages).
-/
import Mathlib

set_option maxRecDepth 40000

namespace Mojibake

/-- A Unicode code point. -/
abbrev Cp := Nat

/-- A JavaScript string, modelled as its list of Unicode code points. -/
abbrev Ustr := List Cp

/-! ## Normalization model (String.prototype.normalize)

Table-driven implementation of Unicode canonical decomposition, canonical
ordering and canonical composition, restricted to the code points listed in
the file header. -/

/-- Canonical combining class, restricted to the four combining marks the
engine exercises: U+0301 acute (230), U+0328 ogonek (202), U+0332 low line
(220), U+0336 long stroke overlay (1). -/
def ccc (c : Nat) : Nat :=
  if c = 0x301 then 230
  else if c = 0x328 then 202
  else if c = 0x332 then 220
  else if c = 0x336 then 1
  else 0

/-- Canonical decomposition table: U+00E9 (e acute) and U+01EB (o ogonek),
the two precomposed characters reachable in the engine's data. -/
def dec1 (c : Nat) : Option (Cp × Cp) :=
  if c = 0xE9 then some (0x65, 0x301)
  else if c = 0x1EB then some (0x6F, 0x328)
  else none

/-- Primary composites for the decompositions in `dec1`. -/
def compPair (a b : Nat) : Option Cp :=
  if a = 0x65 ∧ b = 0x301 then some 0xE9
  else if a = 0x6F ∧ b = 0x328 then some 0x1EB
  else none

/-- Canonical decomposition of a string (one level suffices: no decomposition
product in the table decomposes further). -/
def decompose (s : Ustr) : Ustr :=
  (s.map (fun c =>
    match dec1 c with
    | some p => [p.1, p.2]
    | none => [c])).flatten

/-- Insert a combining mark into an already canonically ordered run: it moves
right past marks of strictly smaller nonzero combining class and stops at a
starter or at a mark of greater or equal class (the stable bubble of
UAX 15's canonical ordering). -/
def insertMark (c : Cp) : Ustr → Ustr
  | [] => [c]
  | x :: xs =>
    if ccc x ≠ 0 ∧ ccc x < ccc c then x :: insertMark c xs
    else c :: x :: xs

/-- Canonical ordering: sort each maximal run of nonzero-ccc marks by
combining class, stably; starters never move. -/
def canonicalOrder : Ustr → Ustr
  | [] => []
  | c :: rest =>
    if ccc c = 0 then c :: canonicalOrder rest
    else insertMark c (canonicalOrder rest)

/-- Canonical composition, run in progress: `L` is the current starter, `lc`
the combining class of the last uncombined mark (0 right after the starter),
`pend` the marks that did not combine so far. A mark combines with `L` when a
primary composite exists and it is not blocked (`lc < ccc m`); a starter
flushes the pending segment and opens the next run. -/
def composeGo (L : Cp) (lc : Nat) (pend : Ustr) : Ustr → Ustr
  | [] => L :: pend
  | m :: ms =>
    if ccc m = 0 then (L :: pend) ++ composeGo m 0 [] ms
    else
      match compPair L m with
      | some L2 =>
        if lc < ccc m then composeGo L2 lc pend ms
        else composeGo L (ccc m) (pend ++ [m]) ms
      | none => composeGo L (ccc m) (pend ++ [m]) ms

/-- Canonical composition over a whole string (marks before the first
starter pass through). -/
def compose : Ustr → Ustr
  | [] => []
  | c :: rest =>
    if ccc c = 0 then composeGo c 0 [] rest
    else c :: compose rest

/-- Model of `normalizeNFD` from the normalization module: canonical
decomposition followed by canonical ordering (the falsy-input early return of
the source returns the empty string unchanged, which coincides). -/
def normalizeNFD (s : Ustr) : Ustr := canonicalOrder (decompose s)

/-- Model of `normalizeNFC`: canonical decomposition, canonical ordering,
canonical composition. -/
def normalizeNFC (s : Ustr) : Ustr := compose (canonicalOrder (decompose s))

/-! ## Grapheme segmentation model (Intl.Segmenter, src/unnamed/part_002)

`segmentGraphemes` in the source delegates to the host's
`Intl.Segmenter(undefined, granularity grapheme)`. The model implements the
extended-grapheme-cluster break rules relevant to the engine's data: GB3
(CR LF joins), GB4/GB5 (controls break on both sides) and GB9 (Extend joins),
with Extend restricted to the Combining Diacritical Marks block. -/

/-- Combining Diacritical Marks U+0300..U+036F carry the Extend property. -/
def isExtendCp (c : Cp) : Bool := 0x300 ≤ c ∧ c ≤ 0x36F

/-- Control code points other than CR and LF (C0 controls, DEL, line and
paragraph separators). -/
def isControlCp (c : Cp) : Bool :=
  (c < 0x20 ∧ c ≠ 0xD ∧ c ≠ 0xA) ∨ c = 0x7F ∨ c = 0x2028 ∨ c = 0x2029

/-- Is there a grapheme cluster break between adjacent code points `a` and
`b`? -/
def graphemeBreakBetween (a b : Cp) : Bool :=
  if a = 0xD ∧ b = 0xA then false
  else if a = 0xD ∨ a = 0xA ∨ isControlCp a then true
  else if b = 0xD ∨ b = 0xA ∨ isControlCp b then true
  else if isExtendCp b then false
  else true

/-- Model of `segmentGraphemes`: split a string into grapheme clusters (the
empty string yields the empty sequence). -/
def segmentGraphemes : Ustr → List Ustr
  | [] => []
  | c :: rest =>
    match segmentGraphemes rest with
    | [] => [[c]]
    | cl :: cls =>
      match cl with
      | [] => [c] :: cls
      | d :: _ => if graphemeBreakBetween c d then [c] :: cl :: cls
                  else (c :: cl) :: cls

/-- Model of `mapGraphemes`: transform each cluster and rejoin. -/
def mapGraphemes (s : Ustr) (f : Ustr → Ustr) : Ustr :=
  ((segmentGraphemes s).map f).flatten

/-- Model of `filterGraphemes`: keep the clusters satisfying the predicate
and rejoin. -/
def filterGraphemes (s : Ustr) (p : Ustr → Bool) : Ustr :=
  ((segmentGraphemes s).filter p).flatten

/-! ## Combining-mark manager (combining-marks module) -/

/-- U+0336 COMBINING LONG STROKE OVERLAY. -/
def STRIKETHROUGH : Cp := 0x336

/-- U+0332 COMBINING LOW LINE. -/
def UNDERLINE : Cp := 0x332

/-- `hasStyleMark`: the cluster contains the mark's code point. -/
def hasStyleMark (cl : Ustr) (m : Cp) : Bool := cl.contains m

/-- `stripStyleMarks`: remove both managed marks, preserve everything else. -/
def stripStyleMarks (cl : Ustr) : Ustr :=
  cl.filter (fun c => !(c = STRIKETHROUGH ∨ c = UNDERLINE))

/-- `stripMark`: remove every occurrence of one specific mark. -/
def stripMark (cl : Ustr) (m : Cp) : Ustr := cl.filter (fun c => c ≠ m)

/-- `addStyleMark`: append the mark at the end of the cluster; no-op on the
empty cluster or when the mark is already present. -/
def addStyleMark (cl : Ustr) (m : Cp) : Ustr :=
  if cl = [] then cl
  else if hasStyleMark cl m then cl
  else cl ++ [m]

/-- `removeStyleMark` is an alias for `stripMark`. -/
def removeStyleMark (cl : Ustr) (m : Cp) : Ustr := stripMark cl m

/-! ## Character map registry (char-maps.js) -/

/-- `buildMapFromRange`: pair the i-th source character with
`startCodePoint + i` (the JS reduce builds the object in this order). -/
def buildMapFromRange : List Cp → Cp → List (Cp × Cp)
  | [], _ => []
  | c :: cs, start => (c, start) :: buildMapFromRange cs (start + 1)

/-- A range of consecutive code points, used to spell out the source
alphabet strings of char-maps.js. -/
def cpRange (start n : Cp) : List Cp := (List.range n).map (fun i => start + i)

/-- The 26 uppercase ASCII letters A-Z. -/
def UPPERCASE : List Cp := cpRange 0x41 26

/-- The 26 lowercase ASCII letters a-z. -/
def LOWERCASE : List Cp := cpRange 0x61 26

/-- The 10 ASCII digits 0-9. -/
def DIGITS : List Cp := cpRange 0x30 10

/-- Greek uppercase Α-Ω: U+0391..U+03A1 and U+03A3..U+03A9 (24 letters,
U+03A2 does not exist). -/
def GREEK_UPPER : List Cp := cpRange 0x391 17 ++ cpRange 0x3A3 7

/-- Greek lowercase α-ω including final sigma: U+03B1..U+03C9 (25 letters,
consecutive). -/
def GREEK_LOWER : List Cp := cpRange 0x3B1 25

/-- One style's forward character map, split into the five categories; a
category the style does not define is the empty association list. -/
structure StyleMap where
  upper : List (Cp × Cp)
  lower : List (Cp × Cp)
  digits : List (Cp × Cp)
  greekUpper : List (Cp × Cp)
  greekLower : List (Cp × Cp)

/-- smallCaps lowercase table (irregular code points, spelled out in the
source; q maps to U+01EB and x maps to itself). -/
def smallCapsLower : List (Cp × Cp) :=
  [(0x61, 0x1D00), (0x62, 0x299), (0x63, 0x1D04), (0x64, 0x1D05),
   (0x65, 0x1D07), (0x66, 0xA730), (0x67, 0x262), (0x68, 0x29C),
   (0x69, 0x26A), (0x6A, 0x1D0A), (0x6B, 0x1D0B), (0x6C, 0x29F),
   (0x6D, 0x1D0D), (0x6E, 0x274), (0x6F, 0x1D0F), (0x70, 0x1D18),
   (0x71, 0x1EB), (0x72, 0x280), (0x73, 0xA731), (0x74, 0x1D1B),
   (0x75, 0x1D1C), (0x76, 0x1D20), (0x77, 0x1D21), (0x78, 0x78),
   (0x79, 0x28F), (0x7A, 0x1D22)]

/-- circled digits: 0 maps to U+24EA (circled zero, outside the range),
1-9 map to U+2460.. consecutively. -/
def circledDigits : List (Cp × Cp) :=
  (0x30, 0x24EA) :: buildMapFromRange (cpRange 0x31 9) 0x2460

/-- smallCaps uppercase passes through unchanged (identity entries). -/
def smallCapsUpper : List (Cp × Cp) := UPPERCASE.map (fun c => (c, c))

/-- Mathematical Sans-Serif Bold with bold digits and bold Greek. -/
def boldMap : StyleMap :=
  ⟨buildMapFromRange UPPERCASE 0x1D5D4, buildMapFromRange LOWERCASE 0x1D5EE,
   buildMapFromRange DIGITS 0x1D7EC, buildMapFromRange GREEK_UPPER 0x1D6A8,
   buildMapFromRange GREEK_LOWER 0x1D6C2⟩

/-- Mathematical Sans-Serif Italic with italic Greek (no italic digits). -/
def italicMap : StyleMap :=
  ⟨buildMapFromRange UPPERCASE 0x1D608, buildMapFromRange LOWERCASE 0x1D622,
   [], buildMapFromRange GREEK_UPPER 0x1D6E2, buildMapFromRange GREEK_LOWER 0x1D6FC⟩

/-- Mathematical Sans-Serif Bold Italic with bold italic Greek. -/
def boldItalicMap : StyleMap :=
  ⟨buildMapFromRange UPPERCASE 0x1D63C, buildMapFromRange LOWERCASE 0x1D656,
   [], buildMapFromRange GREEK_UPPER 0x1D71C, buildMapFromRange GREEK_LOWER 0x1D736⟩

/-- Mathematical Monospace with monospace digits. -/
def monospaceMap : StyleMap :=
  ⟨buildMapFromRange UPPERCASE 0x1D670, buildMapFromRange LOWERCASE 0x1D68A,
   buildMapFromRange DIGITS 0x1D7F6, [], []⟩

/-- Mathematical Script Bold. -/
def scriptMap : StyleMap :=
  ⟨buildMapFromRange UPPERCASE 0x1D4D0, buildMapFromRange LOWERCASE 0x1D4EA, [], [], []⟩

/-- Mathematical Fraktur Bold. -/
def frakturMap : StyleMap :=
  ⟨buildMapFromRange UPPERCASE 0x1D56C, buildMapFromRange LOWERCASE 0x1D586, [], [], []⟩

/-- Enclosed (circled) alphanumerics. -/
def circledMap : StyleMap :=
  ⟨buildMapFromRange UPPERCASE 0x24B6, buildMapFromRange LOWERCASE 0x24D0,
   circledDigits, [], []⟩

/-- Fullwidth Latin letters and digits. -/
def fullwidthMap : StyleMap :=
  ⟨buildMapFromRange UPPERCASE 0xFF21, buildMapFromRange LOWERCASE 0xFF41,
   buildMapFromRange DIGITS 0xFF10, [], []⟩

/-- Small capitals: uppercase passes through unchanged, lowercase uses the
irregular table. -/
def smallCapsMap : StyleMap := ⟨smallCapsUpper, smallCapsLower, [], [], []⟩

/-- `CHAR_MAPS`: the forward maps of the nine substitution styles, keyed by
the style identifier string; unknown identifiers have no map. -/
def CHAR_MAPS (style : String) : Option StyleMap :=
  if style = "bold" then some boldMap
  else if style = "italic" then some italicMap
  else if style = "boldItalic" then some boldItalicMap
  else if style = "monospace" then some monospaceMap
  else if style = "script" then some scriptMap
  else if style = "fraktur" then some frakturMap
  else if style = "circled" then some circledMap
  else if style = "fullwidth" then some fullwidthMap
  else if style = "smallCaps" then some smallCapsMap
  else none

/-- The substitution style identifiers in the insertion order of the
CHAR_MAPS object literal (= Object.entries / Object.values order). -/
def styleNames : List String :=
  ["bold", "italic", "boldItalic", "monospace", "script", "fraktur",
   "circled", "fullwidth", "smallCaps"]

/-- All eleven style identifiers. -/
def allStyleNames : List String := styleNames ++ ["strikethrough", "underline"]

/-- The categories of a style map, concatenated in the category order used by
buildReverseMaps (upper, lower, digits, greekUpper, greekLower). -/
def forwardPairs (m : StyleMap) : List (Cp × Cp) :=
  m.upper ++ m.lower ++ m.digits ++ m.greekUpper ++ m.greekLower

/-- `buildReverseMaps` for one style: invert every category, in category
order (styled code point maps back to its plain source). -/
def reversePairs (m : StyleMap) : List (Cp × Cp) :=
  (forwardPairs m).map (fun p => (p.2, p.1))

/-- `REVERSE_CHAR_MAPS`: the derived reverse map of each substitution style
(initialised from CHAR_MAPS, so exactly the same nine keys). -/
def REVERSE_CHAR_MAPS (style : String) : Option (List (Cp × Cp)) :=
  (CHAR_MAPS style).map reversePairs

/-- `reverseMap[cp] || cp`: reverse-map lookup with pass-through. -/
def revCp (rm : List (Cp × Cp)) (c : Cp) : Cp := (rm.lookup c).getD c

/-- One code point through a style's forward map, trying the categories in
the order upper, lower, digits, greekUpper, greekLower and passing through
unmapped code points. -/
def substCp (m : StyleMap) (c : Cp) : Cp :=
  match m.upper.lookup c with
  | some v => v
  | none =>
    match m.lower.lookup c with
    | some v => v
    | none =>
      match m.digits.lookup c with
      | some v => v
      | none =>
        match m.greekUpper.lookup c with
        | some v => v
        | none =>
          match m.greekLower.lookup c with
          | some v => v
          | none => c

/-! ## Styling engine (src/content/content.js, Unicode API section) -/

/-- JavaScript regex whitespace class backslash-s: space, tab, line
terminators, NBSP, Ogham space, the U+2000 block, and the other Unicode
space separators JS includes. -/
def isWS (c : Cp) : Bool :=
  c = 0x20 ∨ c = 0x9 ∨ c = 0xA ∨ c = 0xB ∨ c = 0xC ∨ c = 0xD ∨
  c = 0xA0 ∨ c = 0x1680 ∨ (0x2000 ≤ c ∧ c ≤ 0x200A) ∨ c = 0x2028 ∨
  c = 0x2029 ∨ c = 0x202F ∨ c = 0x205F ∨ c = 0x3000 ∨ c = 0xFEFF

/-- The whitespace test the engine runs on a cluster (regex
caret-backslash-s-plus-dollar): nonempty and all code points whitespace. -/
def clusterAllWS (cl : Ustr) : Bool := !cl.isEmpty ∧ cl.all isWS

/-- The per-cluster transform of applyStyle for a combining-mark style:
skip all-whitespace clusters, otherwise add the mark. -/
def markClusterWith (m : Cp) (cl : Ustr) : Ustr :=
  if clusterAllWS cl then cl else addStyleMark cl m

/-- The per-cluster transform of applyStyle for a substitution style:
decompose to NFD, map each code point through the style's map, recompose to
NFC. -/
def substCluster (sm : StyleMap) (cl : Ustr) : Ustr :=
  normalizeNFC ((normalizeNFD cl).map (substCp sm))

/-- Model of `applyStyle`. -/
def applyStyle (text : Ustr) (style : String) : Ustr :=
  if text = [] then text
  else
    let input := normalizeNFC text
    if style = "strikethrough" then
      normalizeNFC (mapGraphemes input (markClusterWith STRIKETHROUGH))
    else if style = "underline" then
      normalizeNFC (mapGraphemes input (markClusterWith UNDERLINE))
    else
      match CHAR_MAPS style with
      | none => input
      | some sm => normalizeNFC (mapGraphemes input (substCluster sm))

/-- Model of `removeStyle`. -/
def removeStyle (text : Ustr) (style : String) : Ustr :=
  if text = [] then text
  else
    let input := normalizeNFC text
    if style = "strikethrough" then
      normalizeNFC (mapGraphemes input (fun cl => removeStyleMark cl STRIKETHROUGH))
    else if style = "underline" then
      normalizeNFC (mapGraphemes input (fun cl => removeStyleMark cl UNDERLINE))
    else
      match REVERSE_CHAR_MAPS style with
      | none => input
      | some rm => normalizeNFC (mapGraphemes input (fun cl => cl.map (revCp rm)))

/-- One iteration of toPlainText's reverse-map loop: apply one style's
reverse map to every code point of every cluster. -/
def revStep (acc : Ustr) (name : String) : Ustr :=
  match REVERSE_CHAR_MAPS name with
  | some rm => mapGraphemes acc (fun cl => cl.map (revCp rm))
  | none => acc

/-- Model of `toPlainText`: strip both managed marks, then run every style's
reverse map over the result (in Object.values order), then normalize. -/
def toPlainText (text : Ustr) : Ustr :=
  if text = [] then text
  else
    let r1 := normalizeNFC text
    let r2 := mapGraphemes r1 stripStyleMarks
    let r3 := styleNames.foldl revStep r2
    normalizeNFC r3

/-- The detected style set: one boolean per style identifier. -/
structure Detected where
  bold : Bool
  italic : Bool
  boldItalic : Bool
  strikethrough : Bool
  underline : Bool
  monospace : Bool
  script : Bool
  fraktur : Bool
  circled : Bool
  fullwidth : Bool
  smallCaps : Bool
deriving Repr, DecidableEq

/-- The all-false detected style set detectStyles starts from. -/
def allFalse : Detected :=
  ⟨false, false, false, false, false, false, false, false, false, false, false⟩

/-- Does a cluster contain a code point found in the reverse map? -/
def styleHit (rm : List (Cp × Cp)) (g : Ustr) : Bool :=
  g.any (fun cp => (rm.lookup cp).isSome)

/-- The testable clusters of detectStyles: filter out clusters equal to a
lone managed mark and all-whitespace clusters, rejoin, re-segment. -/
def testableClusters (text : Ustr) : List Ustr :=
  segmentGraphemes (filterGraphemes text (fun c =>
    !(c = [STRIKETHROUGH]) ∧ !(c = [UNDERLINE]) ∧ c.any (fun x => !isWS x)))

/-- The 50-percent vote of detectStyles for one substitution style:
some testable cluster hits the reverse map and at least half of them do
(styledCount >= graphemes.length * 0.5, exact in floating point). -/
def detectVote (style : String) (gs : List Ustr) : Bool :=
  match REVERSE_CHAR_MAPS style with
  | some rm =>
    let k := (gs.filter (styleHit rm)).length
    decide (0 < k) ∧ decide (gs.length ≤ 2 * k)
  | none => false

/-- Model of `detectStyles`. -/
def detectStyles (text : Ustr) : Detected :=
  if text = [] then allFalse
  else
    let strike := text.contains STRIKETHROUGH
    let und := text.contains UNDERLINE
    let gs := testableClusters text
    if gs = [] then { allFalse with strikethrough := strike, underline := und }
    else
      { bold := detectVote "bold" gs
        italic := detectVote "italic" gs
        boldItalic := detectVote "boldItalic" gs
        strikethrough := strike
        underline := und
        monospace := detectVote "monospace" gs
        script := detectVote "script" gs
        fraktur := detectVote "fraktur" gs
        circled := detectVote "circled" gs
        fullwidth := detectVote "fullwidth" gs
        smallCaps := detectVote "smallCaps" gs }

/-- ASCII alphanumeric test used by isStyledWith's testable-set filter. -/
def isAsciiAlnum (c : Cp) : Bool :=
  (0x41 ≤ c ∧ c ≤ 0x5A) ∨ (0x61 ≤ c ∧ c ≤ 0x7A) ∨ (0x30 ≤ c ∧ c ≤ 0x39)

/-- Model of `isStyledWith`. -/
def isStyledWith (text : Ustr) (style : String) : Bool :=
  if text = [] then false
  else if style = "strikethrough" then text.contains STRIKETHROUGH
  else if style = "underline" then text.contains UNDERLINE
  else
    match REVERSE_CHAR_MAPS style with
    | none => false
    | some rm =>
      let gs := segmentGraphemes text
      let testable := gs.filter (fun g => g.any isAsciiAlnum ∨ styleHit rm g)
      if testable.isEmpty then false
      else decide (testable.length ≤ 2 * (testable.filter (styleHit rm)).length)

/-- Model of `toggleStyle` (combining-mark toggle, the bold/italic component
logic, and the exclusive-style branch). -/
def toggleStyle (text : Ustr) (style : String) : Ustr :=
  let d := detectStyles text
  if style = "strikethrough" then
    if d.strikethrough then removeStyle text style else applyStyle text style
  else if style = "underline" then
    if d.underline then removeStyle text style else applyStyle text style
  else if style = "bold" ∨ style = "italic" ∨ style = "boldItalic" then
    let cur : Bool × Bool :=
      if d.boldItalic then (true, true)
      else if d.bold then (true, false)
      else if d.italic then (false, true)
      else (false, false)
    let plain := toPlainText text
    let next : Bool × Bool :=
      if style = "bold" then (!cur.1, cur.2)
      else if style = "italic" then (cur.1, !cur.2)
      else if d.boldItalic then (false, false)
      else (true, true)
    if next.1 ∧ next.2 then applyStyle plain "boldItalic"
    else if next.1 then applyStyle plain "bold"
    else if next.2 then applyStyle plain "italic"
    else plain
  else if isStyledWith text style then removeStyle text style
  else applyStyle (toPlainText text) style

/-! ## Spec-side predicates -/

/-- Plain ASCII or Greek code point: the domain of the round-trip claim
(ASCII, or one of the Greek letters appearing in the source alphabets).
Such text contains no styled code points and no managed combining marks. -/
def plainCp (c : Nat) : Bool :=
  c < 0x80 ∨ (0x391 ≤ c ∧ c ≤ 0x3A9 ∧ c ≠ 0x3A2) ∨ (0x3B1 ≤ c ∧ c ≤ 0x3C9)

/-- All plain ASCII/Greek code points (the bound 0x3CA covers the Greek
alphabet). -/
def plainList : List Cp := (List.range 0x3CA).filter plainCp

/-- A code point is NFC-stable in the model: it is inert (no canonical
decomposition, combining class 0), or one of the two composites (which
recompose), or the acute accent U+0301. -/
def nfcStable (c : Cp) : Bool :=
  (ccc c = 0 ∧ (dec1 c).isNone) ∨ c = 0xE9 ∨ c = 0x1EB ∨ c = 0x301

/-- No adjacent pair e (U+0065) followed by U+0301: such a pair is exactly
what canonical composition would contract. -/
def noEA : Ustr → Bool
  | [] => true
  | [_] => true
  | a :: b :: rest => (!decide (a = 0x65 ∧ b = 0x301)) && noEA (b :: rest)

/-- Well-formedness of a canonically decomposed and ordered string in the
model's data: marks are only U+0301, except that U+0328 may appear directly
after U+006F (the decomposition of U+01EB). -/
def decOK : Ustr → Bool
  | [] => true
  | [c] => (ccc c = 0) ∨ (c = 0x301)
  | c :: d :: rest =>
    if ccc c = 0 then
      if d = 0x328 then (c = 0x6F) ∧ decOK rest
      else decOK (d :: rest)
    else (c = 0x301) ∧ decOK (d :: rest)

/-- One style's reverse lookup applied to one code point (pass-through when
the style has no reverse map). -/
def revCpStep (x : Cp) (name : String) : Cp :=
  match REVERSE_CHAR_MAPS name with
  | some rm => revCp rm x
  | none => x

/-- The reverse-map chain a single code point passes through in toPlainText:
each style's reverse lookup in Object.values order. -/
def revChainAux (names : List String) (c : Cp) : Cp :=
  names.foldl revCpStep c

/-- The full reverse-map chain over the nine substitution styles. -/
def revChain (c : Cp) : Cp := revChainAux styleNames c

/-- All target values of all reverse maps (the plain characters styled code
points map back to). -/
def allRevValues : Ustr :=
  (styleNames.map (fun name =>
    ((REVERSE_CHAR_MAPS name).getD []).map Prod.snd)).flatten

/-- Every nonzero-combining-class code point of the string is U+0301. -/
def marksAcuteOnly (l : Ustr) : Bool := l.all (fun c => ccc c = 0 ∨ c = 0x301)

/-- The styled target ranges of the bold style. -/
def boldRangeP (v : Nat) : Bool :=
  (0x1D5D4 ≤ v ∧ v ≤ 0x1D607) ∨ (0x1D7EC ≤ v ∧ v ≤ 0x1D7F5) ∨
  (0x1D6A8 ≤ v ∧ v ≤ 0x1D6BF) ∨ (0x1D6C2 ≤ v ∧ v ≤ 0x1D6DA)

/-- The styled target ranges of the italic style. -/
def italicRangeP (v : Nat) : Bool :=
  (0x1D608 ≤ v ∧ v ≤ 0x1D63B) ∨ (0x1D6E2 ≤ v ∧ v ≤ 0x1D6F9) ∨
  (0x1D6FC ≤ v ∧ v ≤ 0x1D714)

/-- The styled target ranges of the boldItalic style. -/
def boldItalicRangeP (v : Nat) : Bool :=
  (0x1D63C ≤ v ∧ v ≤ 0x1D66F) ∨ (0x1D71C ≤ v ∧ v ≤ 0x1D733) ∨
  (0x1D736 ≤ v ∧ v ≤ 0x1D74E)

/-- The styled target ranges of the monospace style. -/
def monospaceRangeP (v : Nat) : Bool :=
  (0x1D670 ≤ v ∧ v ≤ 0x1D6A3) ∨ (0x1D7F6 ≤ v ∧ v ≤ 0x1D7FF)

/-- The styled target range of the script style. -/
def scriptRangeP (v : Nat) : Bool := 0x1D4D0 ≤ v ∧ v ≤ 0x1D503

/-- The styled target range of the fraktur style. -/
def frakturRangeP (v : Nat) : Bool := 0x1D56C ≤ v ∧ v ≤ 0x1D59F

/-- The styled target ranges of the circled style. -/
def circledRangeP (v : Nat) : Bool :=
  (0x24B6 ≤ v ∧ v ≤ 0x24EA) ∨ (0x2460 ≤ v ∧ v ≤ 0x2468)

/-- The styled target ranges of the fullwidth style. -/
def fullwidthRangeP (v : Nat) : Bool :=
  (0xFF21 ≤ v ∧ v ≤ 0xFF3A) ∨ (0xFF41 ≤ v ∧ v ≤ 0xFF5A) ∨
  (0xFF10 ≤ v ∧ v ≤ 0xFF19)

/-- The styled target set of the smallCaps style (identity uppercase, the
scattered small-capital blocks, x and o-with-ogonek). -/
def smallCapsRangeP (v : Nat) : Bool :=
  (0x41 ≤ v ∧ v ≤ 0x5A) ∨ v = 0x78 ∨ v = 0x1EB ∨
  (0x262 ≤ v ∧ v ≤ 0x29F) ∨ (0x1D00 ≤ v ∧ v ≤ 0x1D22) ∨
  v = 0xA730 ∨ v = 0xA731

/-- Neither U+0328 (combining ogonek) nor U+01EB (its precomposed o with
ogonek, the only composite any reverse map keys on) occurs in the string. -/
def ogonekFree (l : Ustr) : Bool := l.all (fun c => c ≠ 0x328 ∧ c ≠ 0x1EB)

/-! ## Basic properties of the segmenter -/

theorem segmentGraphemes_flatten (s : Ustr) : (segmentGraphemes s).flatten = s := by
  induction s with
  | nil => rfl
  | cons c rest ih =>
    cases h : segmentGraphemes rest with
    | nil =>
      have hr : rest = [] := by simpa [h] using ih.symm
      simp [segmentGraphemes, h, hr]
    | cons cl cls =>
      cases cl with
      | nil => simp_all [segmentGraphemes, h]
      | cons d ds =>
        by_cases hb : graphemeBreakBetween c d = true <;>
          simp_all [segmentGraphemes, h, hb]

theorem segmentGraphemes_ne_nil {s : Ustr} {cl : Ustr}
    (h : cl ∈ segmentGraphemes s) : cl ≠ [] := by
  induction s generalizing cl with
  | nil => simp [segmentGraphemes] at h
  | cons c rest ih =>
    rw [segmentGraphemes] at h
    rcases hs : segmentGraphemes rest with _ | ⟨cl2, cls⟩
    · rw [hs] at h
      simp at h
      simp [h]
    · rw [hs] at h
      cases cl2 with
      | nil =>
        simp at h
        rcases h with h | h
        · simp [h]
        · exact ih (by rw [hs]; exact List.mem_cons_of_mem _ h)
      | cons d ds =>
        by_cases hb : graphemeBreakBetween c d = true
        · simp [hb] at h
          rcases h with h | h | h
          · simp [h]
          · simp [h]
          · exact ih (by rw [hs]; exact List.mem_cons_of_mem _ h)
        · simp [hb] at h
          rcases h with h | h
          · simp [h]
          · exact ih (by rw [hs]; exact List.mem_cons_of_mem _ h)

theorem mem_of_mem_segmentGraphemes {s cl : Ustr} {c : Cp}
    (hcl : cl ∈ segmentGraphemes s) (hc : c ∈ cl) : c ∈ s := by
  have := segmentGraphemes_flatten s
  rw [← this]
  exact List.mem_flatten.mpr ⟨cl, hcl, hc⟩

/-- mapGraphemes with a function that acts code-point-wise inside each
cluster is the code-point-wise action on the whole string (clusters
partition the string). -/
theorem mapGraphemes_flatMap (s : Ustr) (f : Ustr → Ustr) (g : Cp → Ustr)
    (hf : ∀ cl ∈ segmentGraphemes s, f cl = (cl.map g).flatten) :
    mapGraphemes s f = (s.map g).flatten := by
  unfold mapGraphemes
  rw [List.map_congr_left hf]
  conv_rhs => rw [← segmentGraphemes_flatten s]
  induction segmentGraphemes s with
  | nil => rfl
  | cons cl cls ih =>
    simp only [List.map_cons, List.flatten_cons, List.map_append, ih]
    simp

theorem flatten_map_singleton (g : Cp → Cp) (l : Ustr) :
    (l.map (fun c => [g c])).flatten = l.map g := by
  induction l with
  | nil => rfl
  | cons x xs ihx => simp [ihx]

theorem flatten_map_filterSingleton (p : Cp → Bool) (l : Ustr) :
    (l.map (fun c => if p c then [c] else [])).flatten = l.filter p := by
  induction l with
  | nil => rfl
  | cons x xs ihx =>
    by_cases hp : p x <;> simp [List.filter_cons, hp, ihx]

theorem mapGraphemes_map (s : Ustr) (f : Ustr → Ustr) (g : Cp → Cp)
    (hf : ∀ cl ∈ segmentGraphemes s, f cl = cl.map g) :
    mapGraphemes s f = s.map g := by
  have h2 : ∀ cl ∈ segmentGraphemes s, f cl = (cl.map (fun c => [g c])).flatten := by
    intro cl hcl
    rw [hf cl hcl, flatten_map_singleton]
  rw [mapGraphemes_flatMap s f _ h2, flatten_map_singleton]

theorem mapGraphemes_filter (s : Ustr) (f : Ustr → Ustr) (p : Cp → Bool)
    (hf : ∀ cl ∈ segmentGraphemes s, f cl = cl.filter p) :
    mapGraphemes s f = s.filter p := by
  have h2 : ∀ cl ∈ segmentGraphemes s,
      f cl = (cl.map (fun c => if p c then [c] else [])).flatten := by
    intro cl hcl
    rw [hf cl hcl, flatten_map_filterSingleton]
  rw [mapGraphemes_flatMap s f _ h2, flatten_map_filterSingleton]

/-! ## Normalization is the identity on NFC-stable strings -/

theorem dec1_301 : dec1 0x301 = none := rfl

theorem decompose_cons (c : Cp) (s : Ustr) :
    decompose (c :: s) =
      (match dec1 c with | some p => [p.1, p.2] | none => [c]) ++ decompose s := rfl

theorem decompose_cons_inert {c : Cp} (h : dec1 c = none) (s : Ustr) :
    decompose (c :: s) = c :: decompose s := by
  rw [decompose_cons, h]
  rfl

theorem ccc_le_230 (c : Cp) : ccc c ≤ 230 := by
  simp only [ccc]
  split_ifs <;> omega

theorem decompose_append (a b : Ustr) :
    decompose (a ++ b) = decompose a ++ decompose b := by
  simp [decompose]

theorem decompose_replicate301 (k : Nat) :
    decompose (List.replicate k 0x301) = List.replicate k 0x301 := by
  induction k with
  | zero => rfl
  | succ k ih => simp [List.replicate_succ, decompose_cons_inert dec1_301, ih]

theorem canonicalOrder_cons_starter {c : Cp} (h : ccc c = 0) (s : Ustr) :
    canonicalOrder (c :: s) = c :: canonicalOrder s := by
  simp [canonicalOrder, h]

theorem canonicalOrder_cons_mark {c : Cp} (h : ccc c ≠ 0) (s : Ustr) :
    canonicalOrder (c :: s) = insertMark c (canonicalOrder s) := by
  simp [canonicalOrder, h]

theorem nfcStable_cases {c : Cp} (h : nfcStable c = true) :
    (ccc c = 0 ∧ dec1 c = none) ∨ c = 0xE9 ∨ c = 0x1EB ∨ c = 0x301 := by
  simp only [nfcStable, Bool.or_eq_true, decide_eq_true_eq,
    Bool.and_eq_true, Option.isNone_iff_eq_none] at h
  tauto

theorem decOK_tail_of_starter {c : Cp} {rest : Ustr} (h0 : ccc c = 0)
    (hd : rest.head? ≠ some 0x328) (h : decOK (c :: rest) = true) :
    decOK rest = true := by
  cases rest with
  | nil => rfl
  | cons d rest2 =>
    have hd2 : d ≠ 0x328 := by
      intro hx; exact hd (by rw [hx]; rfl)
    simpa [decOK, h0, hd2] using h

theorem decOK_head {l : Ustr} (h : decOK l = true) :
    l = [] ∨ ∃ hd t, l = hd :: t ∧ (ccc hd = 0 ∨ hd = 0x301) := by
  cases l with
  | nil => exact Or.inl rfl
  | cons c rest =>
    refine Or.inr ⟨c, rest, rfl, ?_⟩
    by_cases h0 : ccc c = 0
    · exact Or.inl h0
    · cases rest with
      | nil => simpa [decOK, h0] using h
      | cons d rest2 =>
        right
        simpa [decOK, h0] using (by simpa [decOK, h0] using h : _ ∧ _).1

/-- The head of the decomposition of a stable string is never U+0328. -/
theorem decompose_head_ne328 {l : Ustr} (h : ∀ c ∈ l, nfcStable c = true) :
    (decompose l).head? ≠ some 0x328 := by
  cases l with
  | nil => simp [decompose]
  | cons c rest =>
    rcases nfcStable_cases (h c (List.mem_cons_self c rest)) with hi | he | ho | ha
    · rw [decompose_cons_inert hi.2]
      have hccc0 : ccc c = 0 := hi.1
      simp only [List.head?_cons, Option.some.injEq]
      intro hcontra
      have hc328 : c = 0x328 := Option.some.inj hcontra
      rw [hc328] at hccc0
      simp [ccc] at hccc0
    · subst he; simp [decompose_cons, dec1]
    · subst ho; simp [decompose_cons, dec1]
    · subst ha; simp [decompose_cons, dec1]

/-- The decomposition of a stable string is a well-formed decomposed
string. -/
theorem decOK_decompose (l : Ustr) (h : ∀ c ∈ l, nfcStable c = true) :
    decOK (decompose l) = true := by
  induction l with
  | nil => rfl
  | cons c rest ih =>
    have hrest : ∀ x ∈ rest, nfcStable x = true :=
      fun x hx => h x (List.mem_cons_of_mem _ hx)
    have ihr := ih hrest
    have hhead := decompose_head_ne328 hrest
    rcases nfcStable_cases (h c (List.mem_cons_self c rest)) with hi | he | ho | ha
    · rw [decompose_cons_inert hi.2]
      cases hD : decompose rest with
      | nil => simp [decOK, hi.1]
      | cons d D2 =>
        have hd : d ≠ 0x328 := by
          rw [hD] at hhead
          simpa using hhead
        rw [hD] at ihr
        simp [decOK, hi.1, hd, ihr]
    · subst he
      rw [decompose_cons]
      have hdec : dec1 0xE9 = some (0x65, 0x301) := rfl
      rw [hdec]
      cases hD : decompose rest with
      | nil => simp [decOK, ccc]
      | cons d D2 =>
        have hd : d ≠ 0x328 := by
          rw [hD] at hhead
          simpa using hhead
        rw [hD] at ihr
        simp [decOK, ccc, hd, ihr]
    · subst ho
      rw [decompose_cons]
      have hdec : dec1 0x1EB = some (0x6F, 0x328) := rfl
      rw [hdec]
      cases hD : decompose rest with
      | nil => simp [decOK, ccc]
      | cons d D2 =>
        rw [hD] at ihr
        simp [decOK, ccc, ihr]
    · subst ha
      rw [decompose_cons_inert dec1_301]
      cases hD : decompose rest with
      | nil => simp [decOK, ccc]
      | cons d D2 =>
        rw [hD] at ihr
        simp only [decOK, ccc] at ihr ⊢
        simp [ihr]

/-- Canonical ordering is the identity on well-formed decomposed strings. -/
theorem canonicalOrder_decOK_aux (n : Nat) :
    ∀ l : Ustr, l.length ≤ n → decOK l = true → canonicalOrder l = l := by
  induction n with
  | zero =>
    intro l hl _
    have : l = [] := List.length_eq_zero.mp (Nat.le_zero.mp hl)
    subst this; rfl
  | succ n ih =>
    intro l hl h
    cases l with
    | nil => rfl
    | cons c rest =>
      by_cases h0 : ccc c = 0
      · rw [canonicalOrder_cons_starter h0]
        cases rest with
        | nil => rfl
        | cons d rest2 =>
          by_cases hd : d = 0x328
          · subst hd
            have hparts : (c = 0x6F) ∧ decOK rest2 = true := by
              simpa [decOK, h0] using h
            have hccc : ccc (0x328 : Cp) ≠ 0 := by decide
            rw [canonicalOrder_cons_mark hccc]
            have hord2 : canonicalOrder rest2 = rest2 := by
              apply ih rest2 _ hparts.2
              simp only [List.length_cons] at hl
              omega
            rw [hord2]
            rcases decOK_head hparts.2 with h2 | ⟨hh, tt, hht, hcl⟩
            · simp [h2, insertMark]
            · subst hht
              have hnm : ¬(ccc hh ≠ 0 ∧ ccc hh < ccc 0x328) := by
                rcases hcl with hcl | hcl
                · simp [hcl]
                · subst hcl; decide
              simp [insertMark, hnm]
          · have hrest : decOK (d :: rest2) = true := by
              simpa [decOK, h0, hd] using h
            have := ih (d :: rest2) (by
              simp only [List.length_cons] at hl ⊢
              omega) hrest
            rw [this]
      · have hparts : (c = 0x301) ∧ decOK rest = true := by
          cases rest with
          | nil => simpa [decOK, h0] using h
          | cons d rest2 => simpa [decOK, h0] using h
        rw [canonicalOrder_cons_mark h0]
        have hord : canonicalOrder rest = rest := by
          apply ih rest _ hparts.2
          simp only [List.length_cons] at hl
          omega
        rw [hord]
        rcases decOK_head hparts.2 with h2 | ⟨hh, tt, hht, hcl⟩
        · simp [h2, insertMark]
        · subst hht
          obtain rfl := hparts.1
          have hnm : ¬(ccc hh ≠ 0 ∧ ccc hh < ccc 0x301) := by
            rcases hcl with hcl | hcl
            · simp [hcl]
            · subst hcl; decide
          simp [insertMark, hnm]

theorem canonicalOrder_decOK {l : Ustr} (h : decOK l = true) :
    canonicalOrder l = l :=
  canonicalOrder_decOK_aux l.length l (Nat.le_refl _) h

theorem compPair_301_none {c : Cp} (h : c ≠ 0x65) : compPair c 0x301 = none := by
  simp [compPair, h]

/-- Running canonical composition through a run of U+0301 marks that cannot
combine with the current starter, followed by a starter (or the end): the
marks are pended unchanged and composition restarts at the next starter. -/
theorem composeGo_run (k : Nat) :
    ∀ (c : Cp) (lc : Nat) (pend rest2 : Ustr),
      (compPair c 0x301 = none ∨ k = 0) →
      (rest2 = [] ∨ ∃ d t, rest2 = d :: t ∧ ccc d = 0) →
      composeGo c lc pend (List.replicate k 0x301 ++ rest2) =
        c :: (pend ++ List.replicate k 0x301 ++ compose rest2) := by
  induction k with
  | zero =>
    intro c lc pend rest2 _ hrest
    rcases hrest with h2 | ⟨d, t, h2, hd⟩
    · subst h2; simp [composeGo, compose]
    · subst h2
      simp [composeGo, compose, hd]
  | succ k ih =>
    intro c lc pend rest2 hc hrest
    have hcn : compPair c 0x301 = none := by
      rcases hc with hc | hc
      · exact hc
      · omega
    rw [List.replicate_succ]
    have hccc : ¬(ccc (0x301 : Cp) = 0) := by decide
    simp only [List.cons_append, composeGo, hccc, if_false, hcn, List.append_eq]
    rw [ih c (ccc 0x301) (pend ++ [0x301]) rest2 (Or.inl hcn) hrest]
    simp

/-- Split a string into its leading run of U+0301 marks and the rest. -/
theorem split301 (l : Ustr) :
    ∃ j s3, l = List.replicate j 0x301 ++ s3 ∧
      (s3 = [] ∨ ∃ h t, s3 = h :: t ∧ h ≠ 0x301) ∧
      s3.length ≤ l.length ∧ (1 ≤ j → l.head? = some 0x301) := by
  induction l with
  | nil => exact ⟨0, [], rfl, Or.inl rfl, Nat.le_refl _, by omega⟩
  | cons c rest ih =>
    by_cases hc : c = 0x301
    · subst hc
      obtain ⟨j, s3, heq, hshape, hlen, _⟩ := ih
      exact ⟨j + 1, s3, by simp [List.replicate_succ, heq],
        hshape, by simpa using Nat.le_succ_of_le hlen, fun _ => rfl⟩
    · exact ⟨0, c :: rest, rfl, Or.inr ⟨c, rest, rfl, hc⟩, Nat.le_refl _, by omega⟩

theorem compose_cons_mark {c : Cp} (h : ccc c ≠ 0) (rest : Ustr) :
    compose (c :: rest) = c :: compose rest := by
  simp [compose, h]

theorem compose_cons_starter {c : Cp} (h : ccc c = 0) (rest : Ustr) :
    compose (c :: rest) = composeGo c 0 [] rest := by
  simp [compose, h]

theorem noEA_tail {a : Cp} {l : Ustr} (h : noEA (a :: l) = true) :
    noEA l = true := by
  cases l with
  | nil => rfl
  | cons b t =>
    simp only [noEA, Bool.and_eq_true] at h
    exact h.2

theorem noEA_suffix : ∀ (pre l : Ustr), noEA (pre ++ l) = true → noEA l = true := by
  intro pre
  induction pre with
  | nil => intro l h; exact h
  | cons p ps ih =>
    intro l h
    exact ih l (noEA_tail (by simpa using h))

/-- Canonical composition recombines the decomposition of any NFC-stable
string without an uncombined e-acute pair. -/
theorem compose_decompose_aux (n : Nat) :
    ∀ l : Ustr, l.length ≤ n → (∀ c ∈ l, nfcStable c = true) →
      noEA l = true → compose (decompose l) = l := by
  induction n with
  | zero =>
    intro l hl _ _
    have : l = [] := List.length_eq_zero.mp (Nat.le_zero.mp hl)
    subst this; rfl
  | succ n ih =>
    intro l hl hstable hnoea
    cases l with
    | nil => rfl
    | cons c s2 =>
      have hs2 : ∀ x ∈ s2, nfcStable x = true :=
        fun x hx => hstable x (List.mem_cons_of_mem _ hx)
      obtain ⟨j, s3, hsplit, hshape, hs3len, hhead⟩ := split301 s2
      have hs3 : ∀ x ∈ s3, nfcStable x = true := by
        intro x hx
        exact hs2 x (by rw [hsplit]; exact List.mem_append_right _ hx)
      have hs3noea : noEA s3 = true := by
        apply noEA_suffix (List.replicate j 0x301)
        rw [← hsplit]
        exact noEA_tail hnoea
      have hcomp3 : compose (decompose s3) = s3 := by
        apply ih s3 _ hs3 hs3noea
        simp only [List.length_cons] at hl
        omega
      -- the decomposition of s3 is empty or starts with a starter
      have hD3 : decompose s3 = [] ∨
          ∃ d t, decompose s3 = d :: t ∧ ccc d = 0 := by
        rcases hshape with h3 | ⟨h, t, h3, hne⟩
        · subst h3; exact Or.inl rfl
        · subst h3
          rcases nfcStable_cases (hs3 h (List.mem_cons_self h t)) with hi | he | ho | ha
          · rw [decompose_cons_inert hi.2]
            exact Or.inr ⟨h, _, rfl, hi.1⟩
          · subst he
            rw [decompose_cons]
            exact Or.inr ⟨0x65, _, rfl, by decide⟩
          · subst ho
            rw [decompose_cons]
            exact Or.inr ⟨0x6F, _, rfl, by decide⟩
          · exact absurd ha hne
      have hdecS2 : decompose s2 = List.replicate j 0x301 ++ decompose s3 := by
        rw [hsplit, decompose_append, decompose_replicate301]
      rcases nfcStable_cases (hstable c (List.mem_cons_self c s2)) with hi | he | ho | ha
      · -- inert starter
        have hc65 : compPair c 0x301 = none ∨ j = 0 := by
          rcases Nat.eq_zero_or_pos j with hj | hj
          · exact Or.inr hj
          · left
            apply compPair_301_none
            intro hc
            subst hc
            -- s2 starts with 0x301: contradiction with noEA
            have := hhead hj
            cases s2 with
            | nil => simp at this
            | cons b t =>
              have hb : b = 0x301 := by simpa using this
              subst hb
              simp [noEA] at hnoea
        rw [decompose_cons_inert hi.2, compose_cons_starter hi.1, hdecS2]
        rw [composeGo_run j c 0 [] (decompose s3) hc65 hD3]
        rw [hcomp3, hsplit]
        simp
      · -- c = U+00E9: decomposes to e + acute which recombine
        subst he
        rw [decompose_cons]
        have hdec : dec1 0xE9 = some (0x65, 0x301) := rfl
        rw [hdec, hdecS2]
        have h65 : ccc (0x65 : Cp) = 0 := by decide
        rw [show ([(0x65 : Cp), 0x301] ++ (List.replicate j 0x301 ++ decompose s3)) =
          0x65 :: (List.replicate (j + 1) 0x301 ++ decompose s3) by
            simp [List.replicate_succ]]
        rw [compose_cons_starter h65]
        have hE9 : compPair (0xE9 : Cp) 0x301 = none := by decide
        have hstep : composeGo 0x65 0 [] (List.replicate (j + 1) 0x301 ++ decompose s3) =
            composeGo 0xE9 0 [] (List.replicate j 0x301 ++ decompose s3) := by
          rw [List.replicate_succ]
          simp [composeGo, ccc, compPair]
        rw [hstep, composeGo_run j 0xE9 0 [] (decompose s3) (Or.inl hE9) hD3]
        rw [hcomp3, hsplit]
        simp
      · -- c = U+01EB: decomposes to o + ogonek which recombine
        subst ho
        rw [decompose_cons]
        have hdec : dec1 0x1EB = some (0x6F, 0x328) := rfl
        rw [hdec, hdecS2]
        have h6F : ccc (0x6F : Cp) = 0 := by decide
        rw [show ([(0x6F : Cp), 0x328] ++ (List.replicate j 0x301 ++ decompose s3)) =
          0x6F :: 0x328 :: (List.replicate j 0x301 ++ decompose s3) by simp]
        rw [compose_cons_starter h6F]
        have h1EB : compPair (0x1EB : Cp) 0x301 = none := by decide
        have hstep : composeGo 0x6F 0 [] (0x328 :: (List.replicate j 0x301 ++ decompose s3)) =
            composeGo 0x1EB 0 [] (List.replicate j 0x301 ++ decompose s3) := by
          simp [composeGo, ccc, compPair]
        rw [hstep, composeGo_run j 0x1EB 0 [] (decompose s3) (Or.inl h1EB) hD3]
        rw [hcomp3, hsplit]
        simp
      · -- c = U+0301: a pass-through mark
        subst ha
        rw [decompose_cons_inert dec1_301]
        have h301 : ccc (0x301 : Cp) ≠ 0 := by decide
        rw [compose_cons_mark h301]
        have : compose (decompose s2) = s2 := by
          apply ih s2 _ hs2 (noEA_tail hnoea)
          simp only [List.length_cons] at hl
          omega
        rw [this]

theorem compose_decompose (l : Ustr) (hstable : ∀ c ∈ l, nfcStable c = true)
    (hnoea : noEA l = true) : compose (decompose l) = l :=
  compose_decompose_aux l.length l (Nat.le_refl _) hstable hnoea

/-- NFC normalization is the identity on NFC-stable strings without an
uncombined e-acute pair. -/
theorem nfc_fixed (l : Ustr) (hstable : ∀ c ∈ l, nfcStable c = true)
    (hnoea : noEA l = true) : normalizeNFC l = l := by
  unfold normalizeNFC
  rw [canonicalOrder_decOK (decOK_decompose l hstable)]
  exact compose_decompose l hstable hnoea

/-- NFD normalization is the identity on strings of inert code points (all
plain ASCII/Greek text is such). -/
theorem nfd_fixed (l : Ustr) (hinert : ∀ c ∈ l, ccc c = 0 ∧ dec1 c = none) :
    normalizeNFD l = l := by
  unfold normalizeNFD
  have hdec : decompose l = l := by
    induction l with
    | nil => rfl
    | cons c rest ihr =>
      rw [decompose_cons_inert (hinert c (List.mem_cons_self c rest)).2]
      rw [ihr (fun x hx => hinert x (List.mem_cons_of_mem _ hx))]
  rw [hdec]
  apply canonicalOrder_decOK
  clear hdec
  induction l with
  | nil => rfl
  | cons c rest ihr =>
    have hc := (hinert c (List.mem_cons_self c rest)).1
    have ihr2 := ihr (fun x hx => hinert x (List.mem_cons_of_mem _ hx))
    cases rest with
    | nil => simp [decOK, hc]
    | cons d rest2 =>
      have hd : d ≠ 0x328 := by
        intro hx
        have hmem : d ∈ c :: d :: rest2 :=
          List.mem_cons_of_mem c (List.mem_cons_self d rest2)
        have hcd := (hinert d hmem).1
        rw [hx] at hcd
        simp [ccc] at hcd
      simp [decOK, hc, hd, ihr2]

/-! ## Association-list lookups and the reverse-map chain -/

theorem lookup_mem {l : List (Cp × Cp)} {k v : Cp} (h : l.lookup k = some v) :
    (k, v) ∈ l := by
  induction l with
  | nil => simp [List.lookup] at h
  | cons p t ih =>
    rw [List.lookup] at h
    by_cases hk : k = p.1
    · subst hk
      simp at h
      subst h
      exact List.mem_cons_self _ _
    · have hb : (k == p.1) = false := by simpa using hk
      rw [hb] at h
      exact List.mem_cons_of_mem _ (ih h)

theorem lookup_not_key {l : List (Cp × Cp)} {k : Cp} (h : ∀ p ∈ l, p.1 ≠ k) :
    l.lookup k = none := by
  induction l with
  | nil => rfl
  | cons p t ih =>
    rw [List.lookup]
    have hb : (k == p.1) = false := by
      simpa using fun he => (h p (List.mem_cons_self _ _) he.symm)
    rw [hb]
    exact ih (fun q hq => h q (List.mem_cons_of_mem _ hq))

theorem revCp_not_key {rm : List (Cp × Cp)} {k : Cp}
    (h : ∀ p ∈ rm, p.1 ≠ k) : revCp rm k = k := by
  simp [revCp, lookup_not_key h]

theorem revCp_hit {rm : List (Cp × Cp)} {k v : Cp} (h : rm.lookup k = some v) :
    revCp rm k = v := by
  simp [revCp, h]

theorem revCp_skip {rm : List (Cp × Cp)} (Pk : Cp → Bool) {v : Cp}
    (hkeys : ∀ p ∈ rm, Pk p.1 = true) (hv : Pk v = false) : revCp rm v = v := by
  apply revCp_not_key
  intro p hp heq
  have h1 := hkeys p hp
  rw [heq, hv] at h1
  exact Bool.false_ne_true h1

theorem substCp_mem (sm : StyleMap) (c : Cp) :
    (c, substCp sm c) ∈ forwardPairs sm ∨ substCp sm c = c := by
  unfold substCp forwardPairs
  cases h1 : sm.upper.lookup c with
  | some v => exact Or.inl (by simp; exact Or.inl (lookup_mem h1))
  | none =>
    cases h2 : sm.lower.lookup c with
    | some v => exact Or.inl (by simp; exact Or.inr (Or.inl (lookup_mem h2)))
    | none =>
      cases h3 : sm.digits.lookup c with
      | some v => exact Or.inl (by simp; exact Or.inr (Or.inr (Or.inl (lookup_mem h3))))
      | none =>
        cases h4 : sm.greekUpper.lookup c with
        | some v =>
          exact Or.inl (by simp; exact Or.inr (Or.inr (Or.inr (Or.inl (lookup_mem h4)))))
        | none =>
          cases h5 : sm.greekLower.lookup c with
          | some v =>
            exact Or.inl (by simp; exact Or.inr (Or.inr (Or.inr (Or.inr (lookup_mem h5)))))
          | none => exact Or.inr rfl

theorem revChainAux_cons (name : String) (rest : List String) (c : Cp)
    (rm : List (Cp × Cp)) (h : REVERSE_CHAR_MAPS name = some rm) :
    revChainAux (name :: rest) c = revChainAux rest (revCp rm c) := by
  simp [revChainAux, revCpStep, h]

theorem revFold_eq_map (names : List String) : ∀ s : Ustr,
    names.foldl revStep s = s.map (revChainAux names) := by
  induction names with
  | nil =>
    intro s
    rw [show revChainAux [] = id from funext (fun c => rfl), List.map_id]
    rfl
  | cons n rest ih =>
    intro s
    cases h : REVERSE_CHAR_MAPS n with
    | none =>
      have hstep : revStep s n = s := by simp [revStep, h]
      simp only [List.foldl_cons, hstep]
      rw [ih s]
      apply List.map_congr_left
      intro c _
      simp [revChainAux, revCpStep, h]
    | some rm =>
      have hstep : revStep s n = s.map (revCp rm) := by
        simp only [revStep, h]
        exact mapGraphemes_map s _ (revCp rm) (fun cl _ => rfl)
      simp only [List.foldl_cons, hstep]
      rw [ih, List.map_map]
      apply List.map_congr_left
      intro c _
      simp [revChainAux, revCpStep, h]

/-! ## Per-style reverse-map facts -/

theorem bold_revRoundtrip :
    ∀ p ∈ forwardPairs boldMap, (reversePairs boldMap).lookup p.2 = some p.1 := by
  decide

theorem bold_values_range :
    ∀ p ∈ forwardPairs boldMap, boldRangeP p.2 = true := by decide

theorem bold_keys_range :
    ∀ p ∈ reversePairs boldMap, boldRangeP p.1 = true := by decide

theorem bold_keys_not_plain :
    ∀ p ∈ reversePairs boldMap, plainCp p.1 = false := by decide

theorem bold_values_good :
    ∀ p ∈ forwardPairs boldMap, nfcStable p.2 = true ∧ p.2 ≠ 0x301 ∧
      p.2 ≠ 0x336 ∧ p.2 ≠ 0x332 := by decide

theorem italic_revRoundtrip :
    ∀ p ∈ forwardPairs italicMap, (reversePairs italicMap).lookup p.2 = some p.1 := by
  decide

theorem italic_values_range :
    ∀ p ∈ forwardPairs italicMap, italicRangeP p.2 = true := by decide

theorem italic_keys_range :
    ∀ p ∈ reversePairs italicMap, italicRangeP p.1 = true := by decide

theorem italic_keys_not_plain :
    ∀ p ∈ reversePairs italicMap, plainCp p.1 = false := by decide

theorem italic_values_good :
    ∀ p ∈ forwardPairs italicMap, nfcStable p.2 = true ∧ p.2 ≠ 0x301 ∧
      p.2 ≠ 0x336 ∧ p.2 ≠ 0x332 := by decide

theorem boldItalic_revRoundtrip :
    ∀ p ∈ forwardPairs boldItalicMap,
      (reversePairs boldItalicMap).lookup p.2 = some p.1 := by decide

theorem boldItalic_values_range :
    ∀ p ∈ forwardPairs boldItalicMap, boldItalicRangeP p.2 = true := by decide

theorem boldItalic_keys_range :
    ∀ p ∈ reversePairs boldItalicMap, boldItalicRangeP p.1 = true := by decide

theorem boldItalic_keys_not_plain :
    ∀ p ∈ reversePairs boldItalicMap, plainCp p.1 = false := by decide

theorem boldItalic_values_good :
    ∀ p ∈ forwardPairs boldItalicMap, nfcStable p.2 = true ∧ p.2 ≠ 0x301 ∧
      p.2 ≠ 0x336 ∧ p.2 ≠ 0x332 := by decide

theorem monospace_revRoundtrip :
    ∀ p ∈ forwardPairs monospaceMap,
      (reversePairs monospaceMap).lookup p.2 = some p.1 := by decide

theorem monospace_values_range :
    ∀ p ∈ forwardPairs monospaceMap, monospaceRangeP p.2 = true := by decide

theorem monospace_keys_range :
    ∀ p ∈ reversePairs monospaceMap, monospaceRangeP p.1 = true := by decide

theorem monospace_keys_not_plain :
    ∀ p ∈ reversePairs monospaceMap, plainCp p.1 = false := by decide

theorem monospace_values_good :
    ∀ p ∈ forwardPairs monospaceMap, nfcStable p.2 = true ∧ p.2 ≠ 0x301 ∧
      p.2 ≠ 0x336 ∧ p.2 ≠ 0x332 := by decide

theorem script_revRoundtrip :
    ∀ p ∈ forwardPairs scriptMap, (reversePairs scriptMap).lookup p.2 = some p.1 := by
  decide

theorem script_values_range :
    ∀ p ∈ forwardPairs scriptMap, scriptRangeP p.2 = true := by decide

theorem script_keys_range :
    ∀ p ∈ reversePairs scriptMap, scriptRangeP p.1 = true := by decide

theorem script_keys_not_plain :
    ∀ p ∈ reversePairs scriptMap, plainCp p.1 = false := by decide

theorem script_values_good :
    ∀ p ∈ forwardPairs scriptMap, nfcStable p.2 = true ∧ p.2 ≠ 0x301 ∧
      p.2 ≠ 0x336 ∧ p.2 ≠ 0x332 := by decide

theorem fraktur_revRoundtrip :
    ∀ p ∈ forwardPairs frakturMap,
      (reversePairs frakturMap).lookup p.2 = some p.1 := by decide

theorem fraktur_values_range :
    ∀ p ∈ forwardPairs frakturMap, frakturRangeP p.2 = true := by decide

theorem fraktur_keys_range :
    ∀ p ∈ reversePairs frakturMap, frakturRangeP p.1 = true := by decide

theorem fraktur_keys_not_plain :
    ∀ p ∈ reversePairs frakturMap, plainCp p.1 = false := by decide

theorem fraktur_values_good :
    ∀ p ∈ forwardPairs frakturMap, nfcStable p.2 = true ∧ p.2 ≠ 0x301 ∧
      p.2 ≠ 0x336 ∧ p.2 ≠ 0x332 := by decide

theorem circled_revRoundtrip :
    ∀ p ∈ forwardPairs circledMap,
      (reversePairs circledMap).lookup p.2 = some p.1 := by decide

theorem circled_values_range :
    ∀ p ∈ forwardPairs circledMap, circledRangeP p.2 = true := by decide

theorem circled_keys_range :
    ∀ p ∈ reversePairs circledMap, circledRangeP p.1 = true := by decide

theorem circled_keys_not_plain :
    ∀ p ∈ reversePairs circledMap, plainCp p.1 = false := by decide

theorem circled_values_good :
    ∀ p ∈ forwardPairs circledMap, nfcStable p.2 = true ∧ p.2 ≠ 0x301 ∧
      p.2 ≠ 0x336 ∧ p.2 ≠ 0x332 := by decide

theorem fullwidth_revRoundtrip :
    ∀ p ∈ forwardPairs fullwidthMap,
      (reversePairs fullwidthMap).lookup p.2 = some p.1 := by decide

theorem fullwidth_values_range :
    ∀ p ∈ forwardPairs fullwidthMap, fullwidthRangeP p.2 = true := by decide

theorem fullwidth_keys_range :
    ∀ p ∈ reversePairs fullwidthMap, fullwidthRangeP p.1 = true := by decide

theorem fullwidth_keys_not_plain :
    ∀ p ∈ reversePairs fullwidthMap, plainCp p.1 = false := by decide

theorem fullwidth_values_good :
    ∀ p ∈ forwardPairs fullwidthMap, nfcStable p.2 = true ∧ p.2 ≠ 0x301 ∧
      p.2 ≠ 0x336 ∧ p.2 ≠ 0x332 := by decide

theorem smallCaps_revRoundtrip :
    ∀ p ∈ forwardPairs smallCapsMap,
      (reversePairs smallCapsMap).lookup p.2 = some p.1 := by decide

theorem smallCaps_values_range :
    ∀ p ∈ forwardPairs smallCapsMap, smallCapsRangeP p.2 = true := by decide

theorem smallCaps_plain_identity :
    ∀ p ∈ reversePairs smallCapsMap, plainCp p.1 = true → p.2 = p.1 := by decide

theorem smallCaps_values_good :
    ∀ p ∈ forwardPairs smallCapsMap, nfcStable p.2 = true ∧ p.2 ≠ 0x301 ∧
      p.2 ≠ 0x336 ∧ p.2 ≠ 0x332 := by decide

/-! ## Disjointness of the styled ranges (in CHAR_MAPS order) -/

theorem disj_italic (v : Cp) (h : italicRangeP v = true) :
    boldRangeP v = false := by
  simp only [italicRangeP, decide_eq_true_eq] at h
  simp only [boldRangeP, decide_eq_false_iff_not]
  omega

theorem disj_boldItalic (v : Cp) (h : boldItalicRangeP v = true) :
    boldRangeP v = false ∧ italicRangeP v = false := by
  simp only [boldItalicRangeP, decide_eq_true_eq] at h
  simp only [boldRangeP, italicRangeP, decide_eq_false_iff_not]
  omega

theorem disj_monospace (v : Cp) (h : monospaceRangeP v = true) :
    boldRangeP v = false ∧ italicRangeP v = false ∧
      boldItalicRangeP v = false := by
  simp only [monospaceRangeP, decide_eq_true_eq] at h
  simp only [boldRangeP, italicRangeP, boldItalicRangeP, decide_eq_false_iff_not]
  omega

theorem disj_script (v : Cp) (h : scriptRangeP v = true) :
    boldRangeP v = false ∧ italicRangeP v = false ∧
      boldItalicRangeP v = false ∧ monospaceRangeP v = false := by
  simp only [scriptRangeP, decide_eq_true_eq] at h
  simp only [boldRangeP, italicRangeP, boldItalicRangeP, monospaceRangeP,
    decide_eq_false_iff_not]
  omega

theorem disj_fraktur (v : Cp) (h : frakturRangeP v = true) :
    boldRangeP v = false ∧ italicRangeP v = false ∧
      boldItalicRangeP v = false ∧ monospaceRangeP v = false ∧
      scriptRangeP v = false := by
  simp only [frakturRangeP, decide_eq_true_eq] at h
  simp only [boldRangeP, italicRangeP, boldItalicRangeP, monospaceRangeP,
    scriptRangeP, decide_eq_false_iff_not]
  omega

theorem disj_circled (v : Cp) (h : circledRangeP v = true) :
    boldRangeP v = false ∧ italicRangeP v = false ∧
      boldItalicRangeP v = false ∧ monospaceRangeP v = false ∧
      scriptRangeP v = false ∧ frakturRangeP v = false := by
  simp only [circledRangeP, decide_eq_true_eq] at h
  simp only [boldRangeP, italicRangeP, boldItalicRangeP, monospaceRangeP,
    scriptRangeP, frakturRangeP, decide_eq_false_iff_not]
  omega

theorem disj_fullwidth (v : Cp) (h : fullwidthRangeP v = true) :
    boldRangeP v = false ∧ italicRangeP v = false ∧
      boldItalicRangeP v = false ∧ monospaceRangeP v = false ∧
      scriptRangeP v = false ∧ frakturRangeP v = false ∧
      circledRangeP v = false := by
  simp only [fullwidthRangeP, decide_eq_true_eq] at h
  simp only [boldRangeP, italicRangeP, boldItalicRangeP, monospaceRangeP,
    scriptRangeP, frakturRangeP, circledRangeP, decide_eq_false_iff_not]
  omega

theorem disj_smallCaps (v : Cp) (h : smallCapsRangeP v = true) :
    boldRangeP v = false ∧ italicRangeP v = false ∧
      boldItalicRangeP v = false ∧ monospaceRangeP v = false ∧
      scriptRangeP v = false ∧ frakturRangeP v = false ∧
      circledRangeP v = false ∧ fullwidthRangeP v = false := by
  simp only [smallCapsRangeP, decide_eq_true_eq] at h
  simp only [boldRangeP, italicRangeP, boldItalicRangeP, monospaceRangeP,
    scriptRangeP, frakturRangeP, circledRangeP, fullwidthRangeP,
    decide_eq_false_iff_not]
  omega

/-! ## The reverse-map chain on plain and styled code points -/

theorem plain_props {c : Nat} (h : plainCp c = true) :
    nfcStable c = true ∧ ccc c = 0 ∧ dec1 c = none ∧
      c ≠ 0x301 ∧ c ≠ 0x336 ∧ c ≠ 0x332 := by
  simp only [plainCp, decide_eq_true_eq] at h
  have h1 : ccc c = 0 := by
    simp only [ccc]
    split_ifs <;> first | rfl | (exfalso; omega)
  have h2 : dec1 c = none := by
    simp only [dec1]
    split_ifs <;> first | rfl | (exfalso; omega)
  refine ⟨?_, h1, h2, by omega, by omega, by omega⟩
  simp [nfcStable, h1, h2]

theorem noEA_of_no301 {l : Ustr} (h : ∀ c ∈ l, c ≠ 0x301) : noEA l = true := by
  induction l with
  | nil => rfl
  | cons a t ih =>
    cases t with
    | nil => rfl
    | cons b t2 =>
      have hb : b ≠ 0x301 :=
        h b (List.mem_cons_of_mem _ (List.mem_cons_self _ _))
      have ht : noEA (b :: t2) = true :=
        ih (fun c hc => h c (List.mem_cons_of_mem _ hc))
      simp [noEA, hb, ht]

theorem revCp_skip_not {rm : List (Cp × Cp)} (Pk : Cp → Bool) {v : Cp}
    (hkeys : ∀ p ∈ rm, Pk p.1 = false) (hv : Pk v = true) : revCp rm v = v := by
  apply revCp_not_key
  intro p hp heq
  have h1 := hkeys p hp
  rw [heq, hv] at h1
  exact Bool.false_ne_true h1.symm

theorem revCp_plain_name :
    ∀ name ∈ styleNames, ∀ rm, REVERSE_CHAR_MAPS name = some rm →
      ∀ c, plainCp c = true → revCp rm c = c := by
  intro name hname rm hrm c hc
  fin_cases hname
  · obtain rfl : rm = reversePairs boldMap := (Option.some.inj hrm).symm
    exact revCp_skip_not plainCp bold_keys_not_plain hc
  · obtain rfl : rm = reversePairs italicMap := (Option.some.inj hrm).symm
    exact revCp_skip_not plainCp italic_keys_not_plain hc
  · obtain rfl : rm = reversePairs boldItalicMap := (Option.some.inj hrm).symm
    exact revCp_skip_not plainCp boldItalic_keys_not_plain hc
  · obtain rfl : rm = reversePairs monospaceMap := (Option.some.inj hrm).symm
    exact revCp_skip_not plainCp monospace_keys_not_plain hc
  · obtain rfl : rm = reversePairs scriptMap := (Option.some.inj hrm).symm
    exact revCp_skip_not plainCp script_keys_not_plain hc
  · obtain rfl : rm = reversePairs frakturMap := (Option.some.inj hrm).symm
    exact revCp_skip_not plainCp fraktur_keys_not_plain hc
  · obtain rfl : rm = reversePairs circledMap := (Option.some.inj hrm).symm
    exact revCp_skip_not plainCp circled_keys_not_plain hc
  · obtain rfl : rm = reversePairs fullwidthMap := (Option.some.inj hrm).symm
    exact revCp_skip_not plainCp fullwidth_keys_not_plain hc
  · obtain rfl : rm = reversePairs smallCapsMap := (Option.some.inj hrm).symm
    cases hl : (reversePairs smallCapsMap).lookup c with
    | none => simp [revCp, hl]
    | some v =>
      have hid : v = c := smallCaps_plain_identity _ (lookup_mem hl) hc
      rw [revCp_hit hl, hid]

theorem revChainSuffix (names : List String)
    (hsub : ∀ n ∈ names, n ∈ styleNames) :
    ∀ c, plainCp c = true → revChainAux names c = c := by
  induction names with
  | nil => intro c _; rfl
  | cons n rest ih =>
    intro c hc
    have hn := hsub n (List.mem_cons_self _ _)
    cases hrm : REVERSE_CHAR_MAPS n with
    | none =>
      have hstep : revChainAux (n :: rest) c = revChainAux rest c := by
        simp [revChainAux, revCpStep, hrm]
      rw [hstep]
      exact ih (fun m hm => hsub m (List.mem_cons_of_mem _ hm)) c hc
    | some rm =>
      rw [revChainAux_cons n rest c rm hrm,
        revCp_plain_name n hn rm hrm c hc]
      exact ih (fun m hm => hsub m (List.mem_cons_of_mem _ hm)) c hc

theorem plain_revChain {c : Cp} (hc : plainCp c = true) : revChain c = c :=
  revChainSuffix styleNames (fun _ h => h) c hc

theorem revChain_eq (x : Cp) : revChain x = revChainAux styleNames x := rfl

theorem toPlainText_unfold (T : Ustr) (hT : T ≠ []) :
    toPlainText T = normalizeNFC (styleNames.foldl revStep
      (mapGraphemes (normalizeNFC T) stripStyleMarks)) := by
  rw [toPlainText, if_neg hT]

theorem revChain_value_bold : ∀ c v, (c, v) ∈ forwardPairs boldMap →
    plainCp c = true → revChain v = c := by
  intro c v hmem hc
  have hlk := bold_revRoundtrip _ hmem
  rw [revChain, styleNames, revChainAux_cons "bold" _ v _ rfl, revCp_hit hlk]
  exact revChainSuffix _ (by decide) c hc

theorem revChain_value_italic : ∀ c v, (c, v) ∈ forwardPairs italicMap →
    plainCp c = true → revChain v = c := by
  intro c v hmem hc
  have hv := italic_values_range _ hmem
  have hd := disj_italic v hv
  have hlk := italic_revRoundtrip _ hmem
  rw [revChain, styleNames, revChainAux_cons "bold" _ v _ rfl,
    revCp_skip boldRangeP bold_keys_range hd,
    revChainAux_cons "italic" _ v _ rfl, revCp_hit hlk]
  exact revChainSuffix _ (by decide) c hc

theorem revChain_value_boldItalic : ∀ c v, (c, v) ∈ forwardPairs boldItalicMap →
    plainCp c = true → revChain v = c := by
  intro c v hmem hc
  have hv := boldItalic_values_range _ hmem
  have hd := disj_boldItalic v hv
  have hlk := boldItalic_revRoundtrip _ hmem
  rw [revChain, styleNames, revChainAux_cons "bold" _ v _ rfl,
    revCp_skip boldRangeP bold_keys_range hd.1,
    revChainAux_cons "italic" _ v _ rfl,
    revCp_skip italicRangeP italic_keys_range hd.2,
    revChainAux_cons "boldItalic" _ v _ rfl, revCp_hit hlk]
  exact revChainSuffix _ (by decide) c hc

theorem revChain_value_monospace : ∀ c v, (c, v) ∈ forwardPairs monospaceMap →
    plainCp c = true → revChain v = c := by
  intro c v hmem hc
  have hv := monospace_values_range _ hmem
  have hd := disj_monospace v hv
  have hlk := monospace_revRoundtrip _ hmem
  rw [revChain, styleNames, revChainAux_cons "bold" _ v _ rfl,
    revCp_skip boldRangeP bold_keys_range hd.1,
    revChainAux_cons "italic" _ v _ rfl,
    revCp_skip italicRangeP italic_keys_range hd.2.1,
    revChainAux_cons "boldItalic" _ v _ rfl,
    revCp_skip boldItalicRangeP boldItalic_keys_range hd.2.2,
    revChainAux_cons "monospace" _ v _ rfl, revCp_hit hlk]
  exact revChainSuffix _ (by decide) c hc

theorem revChain_value_script : ∀ c v, (c, v) ∈ forwardPairs scriptMap →
    plainCp c = true → revChain v = c := by
  intro c v hmem hc
  have hv := script_values_range _ hmem
  have hd := disj_script v hv
  have hlk := script_revRoundtrip _ hmem
  rw [revChain, styleNames, revChainAux_cons "bold" _ v _ rfl,
    revCp_skip boldRangeP bold_keys_range hd.1,
    revChainAux_cons "italic" _ v _ rfl,
    revCp_skip italicRangeP italic_keys_range hd.2.1,
    revChainAux_cons "boldItalic" _ v _ rfl,
    revCp_skip boldItalicRangeP boldItalic_keys_range hd.2.2.1,
    revChainAux_cons "monospace" _ v _ rfl,
    revCp_skip monospaceRangeP monospace_keys_range hd.2.2.2,
    revChainAux_cons "script" _ v _ rfl, revCp_hit hlk]
  exact revChainSuffix _ (by decide) c hc

theorem revChain_value_fraktur : ∀ c v, (c, v) ∈ forwardPairs frakturMap →
    plainCp c = true → revChain v = c := by
  intro c v hmem hc
  have hv := fraktur_values_range _ hmem
  have hd := disj_fraktur v hv
  have hlk := fraktur_revRoundtrip _ hmem
  rw [revChain, styleNames, revChainAux_cons "bold" _ v _ rfl,
    revCp_skip boldRangeP bold_keys_range hd.1,
    revChainAux_cons "italic" _ v _ rfl,
    revCp_skip italicRangeP italic_keys_range hd.2.1,
    revChainAux_cons "boldItalic" _ v _ rfl,
    revCp_skip boldItalicRangeP boldItalic_keys_range hd.2.2.1,
    revChainAux_cons "monospace" _ v _ rfl,
    revCp_skip monospaceRangeP monospace_keys_range hd.2.2.2.1,
    revChainAux_cons "script" _ v _ rfl,
    revCp_skip scriptRangeP script_keys_range hd.2.2.2.2,
    revChainAux_cons "fraktur" _ v _ rfl, revCp_hit hlk]
  exact revChainSuffix _ (by decide) c hc

theorem revChain_value_circled : ∀ c v, (c, v) ∈ forwardPairs circledMap →
    plainCp c = true → revChain v = c := by
  intro c v hmem hc
  have hv := circled_values_range _ hmem
  have hd := disj_circled v hv
  have hlk := circled_revRoundtrip _ hmem
  rw [revChain, styleNames, revChainAux_cons "bold" _ v _ rfl,
    revCp_skip boldRangeP bold_keys_range hd.1,
    revChainAux_cons "italic" _ v _ rfl,
    revCp_skip italicRangeP italic_keys_range hd.2.1,
    revChainAux_cons "boldItalic" _ v _ rfl,
    revCp_skip boldItalicRangeP boldItalic_keys_range hd.2.2.1,
    revChainAux_cons "monospace" _ v _ rfl,
    revCp_skip monospaceRangeP monospace_keys_range hd.2.2.2.1,
    revChainAux_cons "script" _ v _ rfl,
    revCp_skip scriptRangeP script_keys_range hd.2.2.2.2.1,
    revChainAux_cons "fraktur" _ v _ rfl,
    revCp_skip frakturRangeP fraktur_keys_range hd.2.2.2.2.2,
    revChainAux_cons "circled" _ v _ rfl, revCp_hit hlk]
  exact revChainSuffix _ (by decide) c hc

theorem revChain_value_fullwidth : ∀ c v, (c, v) ∈ forwardPairs fullwidthMap →
    plainCp c = true → revChain v = c := by
  intro c v hmem hc
  have hv := fullwidth_values_range _ hmem
  have hd := disj_fullwidth v hv
  have hlk := fullwidth_revRoundtrip _ hmem
  rw [revChain, styleNames, revChainAux_cons "bold" _ v _ rfl,
    revCp_skip boldRangeP bold_keys_range hd.1,
    revChainAux_cons "italic" _ v _ rfl,
    revCp_skip italicRangeP italic_keys_range hd.2.1,
    revChainAux_cons "boldItalic" _ v _ rfl,
    revCp_skip boldItalicRangeP boldItalic_keys_range hd.2.2.1,
    revChainAux_cons "monospace" _ v _ rfl,
    revCp_skip monospaceRangeP monospace_keys_range hd.2.2.2.1,
    revChainAux_cons "script" _ v _ rfl,
    revCp_skip scriptRangeP script_keys_range hd.2.2.2.2.1,
    revChainAux_cons "fraktur" _ v _ rfl,
    revCp_skip frakturRangeP fraktur_keys_range hd.2.2.2.2.2.1,
    revChainAux_cons "circled" _ v _ rfl,
    revCp_skip circledRangeP circled_keys_range hd.2.2.2.2.2.2,
    revChainAux_cons "fullwidth" _ v _ rfl, revCp_hit hlk]
  exact revChainSuffix _ (by decide) c hc

theorem revChain_value_smallCaps : ∀ c v, (c, v) ∈ forwardPairs smallCapsMap →
    plainCp c = true → revChain v = c := by
  intro c v hmem hc
  have hv := smallCaps_values_range _ hmem
  have hd := disj_smallCaps v hv
  have hlk := smallCaps_revRoundtrip _ hmem
  rw [revChain, styleNames, revChainAux_cons "bold" _ v _ rfl,
    revCp_skip boldRangeP bold_keys_range hd.1,
    revChainAux_cons "italic" _ v _ rfl,
    revCp_skip italicRangeP italic_keys_range hd.2.1,
    revChainAux_cons "boldItalic" _ v _ rfl,
    revCp_skip boldItalicRangeP boldItalic_keys_range hd.2.2.1,
    revChainAux_cons "monospace" _ v _ rfl,
    revCp_skip monospaceRangeP monospace_keys_range hd.2.2.2.1,
    revChainAux_cons "script" _ v _ rfl,
    revCp_skip scriptRangeP script_keys_range hd.2.2.2.2.1,
    revChainAux_cons "fraktur" _ v _ rfl,
    revCp_skip frakturRangeP fraktur_keys_range hd.2.2.2.2.2.1,
    revChainAux_cons "circled" _ v _ rfl,
    revCp_skip circledRangeP circled_keys_range hd.2.2.2.2.2.2.1,
    revChainAux_cons "fullwidth" _ v _ rfl,
    revCp_skip fullwidthRangeP fullwidth_keys_range hd.2.2.2.2.2.2.2,
    revChainAux_cons "smallCaps" _ v _ rfl, revCp_hit hlk]
  rfl

/-- The round-trip engine lemma for one substitution style: on plain
ASCII/Greek text, applyStyle is code-point-wise substitution and toPlainText
undoes it exactly. -/
theorem c1_core (t : Ustr) (sm : StyleMap) (ht : t ≠ [])
    (hplain : ∀ c ∈ t, plainCp c = true)
    (hgood : ∀ p ∈ forwardPairs sm, nfcStable p.2 = true ∧ p.2 ≠ 0x301 ∧
      p.2 ≠ 0x336 ∧ p.2 ≠ 0x332)
    (hchain : ∀ c v, (c, v) ∈ forwardPairs sm → plainCp c = true →
      revChain v = c) :
    toPlainText (normalizeNFC (mapGraphemes (normalizeNFC t) (substCluster sm))) = t := by
  have hsub : ∀ c, plainCp c = true →
      nfcStable (substCp sm c) = true ∧ substCp sm c ≠ 0x301 ∧
        substCp sm c ≠ 0x336 ∧ substCp sm c ≠ 0x332 := by
    intro c hc
    rcases substCp_mem sm c with hm | he
    · exact hgood _ hm
    · rw [he]
      obtain ⟨hs, _, _, h301, h336, h332⟩ := plain_props hc
      exact ⟨hs, h301, h336, h332⟩
  have hstab_t : ∀ c ∈ t, nfcStable c = true :=
    fun c hc => (plain_props (hplain c hc)).1
  have hno301_t : ∀ c ∈ t, c ≠ 0x301 :=
    fun c hc => (plain_props (hplain c hc)).2.2.2.1
  have hNFCt : normalizeNFC t = t := nfc_fixed t hstab_t (noEA_of_no301 hno301_t)
  have hcl : ∀ cl ∈ segmentGraphemes t, substCluster sm cl = cl.map (substCp sm) := by
    intro cl hclmem
    have hclplain : ∀ c ∈ cl, plainCp c = true :=
      fun c hc => hplain c (mem_of_mem_segmentGraphemes hclmem hc)
    have hNFD : normalizeNFD cl = cl :=
      nfd_fixed cl (fun c hc =>
        ⟨(plain_props (hclplain c hc)).2.1, (plain_props (hclplain c hc)).2.2.1⟩)
    unfold substCluster
    rw [hNFD]
    apply nfc_fixed
    · intro x hx
      obtain ⟨c, hc, rfl⟩ := List.mem_map.mp hx
      exact (hsub c (hclplain c hc)).1
    · apply noEA_of_no301
      intro x hx
      obtain ⟨c, hc, rfl⟩ := List.mem_map.mp hx
      exact (hsub c (hclplain c hc)).2.1
  have hmapped : mapGraphemes (normalizeNFC t) (substCluster sm) =
      t.map (substCp sm) := by
    rw [hNFCt]
    exact mapGraphemes_map t _ _ hcl
  rw [hmapped]
  have hTfacts : ∀ x ∈ t.map (substCp sm),
      nfcStable x = true ∧ x ≠ 0x301 ∧ x ≠ 0x336 ∧ x ≠ 0x332 := by
    intro x hx
    obtain ⟨c, hc, rfl⟩ := List.mem_map.mp hx
    exact hsub c (hplain c hc)
  have hNFCT : normalizeNFC (t.map (substCp sm)) = t.map (substCp sm) :=
    nfc_fixed _ (fun x hx => (hTfacts x hx).1)
      (noEA_of_no301 (fun x hx => (hTfacts x hx).2.1))
  rw [hNFCT]
  have hTne : t.map (substCp sm) ≠ [] := by
    intro h0
    exact ht (List.map_eq_nil_iff.mp h0)
  rw [toPlainText_unfold _ hTne, hNFCT]
  have hstrip : mapGraphemes (t.map (substCp sm)) stripStyleMarks =
      t.map (substCp sm) := by
    rw [mapGraphemes_filter _ stripStyleMarks _ (fun cl _ => rfl)]
    apply List.filter_eq_self.mpr
    intro x hx
    have hf := hTfacts x hx
    simp [STRIKETHROUGH, UNDERLINE, hf.2.2.1, hf.2.2.2]
  rw [hstrip]
  rw [revFold_eq_map styleNames]
  have hback : (t.map (substCp sm)).map (revChainAux styleNames) = t := by
    rw [List.map_map]
    have hid : ∀ c ∈ t, (revChainAux styleNames ∘ substCp sm) c = c := by
      intro c hc
      have hcp := hplain c hc
      rcases substCp_mem sm c with hm | he
      · calc (revChainAux styleNames ∘ substCp sm) c
            = revChainAux styleNames (substCp sm c) := Function.comp_apply
          _ = revChain (substCp sm c) := (revChain_eq _).symm
          _ = c := hchain c _ hm hcp
      · calc (revChainAux styleNames ∘ substCp sm) c
            = revChainAux styleNames (substCp sm c) := Function.comp_apply
          _ = revChain (substCp sm c) := (revChain_eq _).symm
          _ = revChain c := by rw [he]
          _ = c := plain_revChain hcp
    rw [List.map_congr_left hid, List.map_id']
  rw [hback, hNFCt]

/-! ## Membership through normalization (for the idempotence analysis) -/

theorem compPair_inv {a b v : Nat} (h : compPair a b = some v) :
    (a = 0x65 ∧ b = 0x301 ∧ v = 0xE9) ∨ (a = 0x6F ∧ b = 0x328 ∧ v = 0x1EB) := by
  simp only [compPair] at h
  split_ifs at h with h1 h2
  · exact Or.inl ⟨h1.1, h1.2, (Option.some.inj h).symm⟩
  · exact Or.inr ⟨h2.1, h2.2, (Option.some.inj h).symm⟩

theorem ccc_ne_zero_cases {c : Nat} (h : ccc c ≠ 0) :
    c = 0x301 ∨ c = 0x328 ∨ c = 0x332 ∨ c = 0x336 := by
  simp only [ccc] at h
  split_ifs at h with h1 h2 h3 h4
  · exact Or.inl h1
  · exact Or.inr (Or.inl h2)
  · exact Or.inr (Or.inr (Or.inl h3))
  · exact Or.inr (Or.inr (Or.inr h4))
  · exact absurd rfl h

theorem dec1_some_cases {c : Nat} {p : Cp × Cp} (h : dec1 c = some p) :
    (c = 0xE9 ∧ p = (0x65, 0x301)) ∨ (c = 0x1EB ∧ p = (0x6F, 0x328)) := by
  simp only [dec1] at h
  split_ifs at h with h1 h2
  · exact Or.inl ⟨h1, (Option.some.inj h).symm⟩
  · exact Or.inr ⟨h2, (Option.some.inj h).symm⟩

theorem decompose_mem {l : Ustr} {x : Cp} (h : x ∈ decompose l) :
    x ∈ l ∨ ((x = 0x65 ∨ x = 0x301) ∧ 0xE9 ∈ l) ∨
      ((x = 0x6F ∨ x = 0x328) ∧ 0x1EB ∈ l) := by
  induction l with
  | nil => simp [decompose] at h
  | cons c rest ih =>
    rw [decompose_cons] at h
    rcases List.mem_append.mp h with h1 | h1
    · cases hd : dec1 c with
      | none =>
        rw [hd] at h1
        simp at h1
        subst h1
        exact Or.inl (List.mem_cons_self _ _)
      | some p =>
        rw [hd] at h1
        rcases dec1_some_cases hd with ⟨hc, hp⟩ | ⟨hc, hp⟩
        · subst hc hp
          simp at h1
          rcases h1 with h1 | h1
          · exact Or.inr (Or.inl ⟨Or.inl h1, List.mem_cons_self _ _⟩)
          · exact Or.inr (Or.inl ⟨Or.inr h1, List.mem_cons_self _ _⟩)
        · subst hc hp
          simp at h1
          rcases h1 with h1 | h1
          · exact Or.inr (Or.inr ⟨Or.inl h1, List.mem_cons_self _ _⟩)
          · exact Or.inr (Or.inr ⟨Or.inr h1, List.mem_cons_self _ _⟩)
    · rcases ih h1 with h2 | h2 | h2
      · exact Or.inl (List.mem_cons_of_mem _ h2)
      · exact Or.inr (Or.inl ⟨h2.1, List.mem_cons_of_mem _ h2.2⟩)
      · exact Or.inr (Or.inr ⟨h2.1, List.mem_cons_of_mem _ h2.2⟩)

theorem insertMark_mem {c x : Cp} : ∀ {l : Ustr}, x ∈ insertMark c l →
    x = c ∨ x ∈ l := by
  intro l
  induction l with
  | nil => intro h; simpa [insertMark] using h
  | cons y ys ih =>
    intro h
    rw [insertMark] at h
    by_cases hc : ccc y ≠ 0 ∧ ccc y < ccc c
    · rw [if_pos hc] at h
      rcases List.mem_cons.mp h with h1 | h1
      · exact Or.inr (by simp [h1])
      · rcases ih h1 with h2 | h2
        · exact Or.inl h2
        · exact Or.inr (List.mem_cons_of_mem _ h2)
    · rw [if_neg hc] at h
      rcases List.mem_cons.mp h with h1 | h1
      · exact Or.inl h1
      · exact Or.inr h1

theorem canonicalOrder_mem {x : Cp} : ∀ {l : Ustr}, x ∈ canonicalOrder l →
    x ∈ l := by
  intro l
  induction l with
  | nil => intro h; simp [canonicalOrder] at h
  | cons c rest ih =>
    intro h
    rw [canonicalOrder] at h
    by_cases h0 : ccc c = 0
    · rw [if_pos h0] at h
      rcases List.mem_cons.mp h with h1 | h1
      · simp [h1]
      · exact List.mem_cons_of_mem _ (ih h1)
    · rw [if_neg h0] at h
      rcases insertMark_mem h with h1 | h1
      · simp [h1]
      · exact List.mem_cons_of_mem _ (ih h1)

theorem composeGo_mem {x : Cp} : ∀ (ms : Ustr) (L : Cp) (lc : Nat) (pend : Ustr),
    x ∈ composeGo L lc pend ms →
      x = L ∨ x ∈ pend ∨ x ∈ ms ∨ (x = 0xE9 ∧ 0x301 ∈ ms) ∨
        (x = 0x1EB ∧ 0x328 ∈ ms) := by
  intro ms
  induction ms with
  | nil =>
    intro L lc pend h
    rw [composeGo] at h
    rcases List.mem_cons.mp h with h1 | h1
    · exact Or.inl h1
    · exact Or.inr (Or.inl h1)
  | cons m ms ih =>
    intro L lc pend h
    rw [composeGo] at h
    by_cases h0 : ccc m = 0
    · rw [if_pos h0] at h
      rcases List.mem_append.mp h with h1 | h1
      · rcases List.mem_cons.mp h1 with h2 | h2
        · exact Or.inl h2
        · exact Or.inr (Or.inl h2)
      · rcases ih m 0 [] h1 with h2 | h2 | h2 | h2 | h2
        · exact Or.inr (Or.inr (Or.inl (by simp [h2])))
        · simp at h2
        · exact Or.inr (Or.inr (Or.inl (List.mem_cons_of_mem _ h2)))
        · exact Or.inr (Or.inr (Or.inr (Or.inl
            ⟨h2.1, List.mem_cons_of_mem _ h2.2⟩)))
        · exact Or.inr (Or.inr (Or.inr (Or.inr
            ⟨h2.1, List.mem_cons_of_mem _ h2.2⟩)))
    · rw [if_neg h0] at h
      cases hcp : compPair L m with
      | some L2 =>
        simp only [hcp] at h
        by_cases hbl : lc < ccc m
        · rw [if_pos hbl] at h
          rcases ih L2 lc pend h with h2 | h2 | h2 | h2 | h2
          · rcases compPair_inv hcp with ⟨_, hm, hv⟩ | ⟨_, hm, hv⟩
            · exact Or.inr (Or.inr (Or.inr (Or.inl
                ⟨hv ▸ h2, by simp [hm]⟩)))
            · exact Or.inr (Or.inr (Or.inr (Or.inr
                ⟨hv ▸ h2, by simp [hm]⟩)))
          · exact Or.inr (Or.inl h2)
          · exact Or.inr (Or.inr (Or.inl (List.mem_cons_of_mem _ h2)))
          · exact Or.inr (Or.inr (Or.inr (Or.inl
              ⟨h2.1, List.mem_cons_of_mem _ h2.2⟩)))
          · exact Or.inr (Or.inr (Or.inr (Or.inr
              ⟨h2.1, List.mem_cons_of_mem _ h2.2⟩)))
        · rw [if_neg hbl] at h
          rcases ih L (ccc m) (pend ++ [m]) h with h2 | h2 | h2 | h2 | h2
          · exact Or.inl h2
          · rcases List.mem_append.mp h2 with h3 | h3
            · exact Or.inr (Or.inl h3)
            · simp at h3
              exact Or.inr (Or.inr (Or.inl (by simp [h3])))
          · exact Or.inr (Or.inr (Or.inl (List.mem_cons_of_mem _ h2)))
          · exact Or.inr (Or.inr (Or.inr (Or.inl
              ⟨h2.1, List.mem_cons_of_mem _ h2.2⟩)))
          · exact Or.inr (Or.inr (Or.inr (Or.inr
              ⟨h2.1, List.mem_cons_of_mem _ h2.2⟩)))
      | none =>
        simp only [hcp] at h
        rcases ih L (ccc m) (pend ++ [m]) h with h2 | h2 | h2 | h2 | h2
        · exact Or.inl h2
        · rcases List.mem_append.mp h2 with h3 | h3
          · exact Or.inr (Or.inl h3)
          · simp at h3
            exact Or.inr (Or.inr (Or.inl (by simp [h3])))
        · exact Or.inr (Or.inr (Or.inl (List.mem_cons_of_mem _ h2)))
        · exact Or.inr (Or.inr (Or.inr (Or.inl
            ⟨h2.1, List.mem_cons_of_mem _ h2.2⟩)))
        · exact Or.inr (Or.inr (Or.inr (Or.inr
            ⟨h2.1, List.mem_cons_of_mem _ h2.2⟩)))

theorem compose_mem {x : Cp} : ∀ {l : Ustr}, x ∈ compose l →
    x ∈ l ∨ (x = 0xE9 ∧ 0x301 ∈ l) ∨ (x = 0x1EB ∧ 0x328 ∈ l) := by
  intro l
  induction l with
  | nil => intro h; simp [compose] at h
  | cons c rest ih =>
    intro h
    rw [compose] at h
    by_cases h0 : ccc c = 0
    · rw [if_pos h0] at h
      rcases composeGo_mem rest c 0 [] h with h2 | h2 | h2 | h2 | h2
      · exact Or.inl (by simp [h2])
      · simp at h2
      · exact Or.inl (List.mem_cons_of_mem _ h2)
      · exact Or.inr (Or.inl ⟨h2.1, List.mem_cons_of_mem _ h2.2⟩)
      · exact Or.inr (Or.inr ⟨h2.1, List.mem_cons_of_mem _ h2.2⟩)
    · rw [if_neg h0] at h
      rcases List.mem_cons.mp h with h1 | h1
      · exact Or.inl (by simp [h1])
      · rcases ih h1 with h2 | h2 | h2
        · exact Or.inl (List.mem_cons_of_mem _ h2)
        · exact Or.inr (Or.inl ⟨h2.1, List.mem_cons_of_mem _ h2.2⟩)
        · exact Or.inr (Or.inr ⟨h2.1, List.mem_cons_of_mem _ h2.2⟩)

/-- Without U+0328 and U+01EB in the input, NFC cannot introduce them, and
every code point of the result is from the input or from the e-acute data. -/
theorem nfc_mem_tame {l : Ustr} (h328 : 0x328 ∉ l) (h1EB : 0x1EB ∉ l) :
    (0x328 ∉ normalizeNFC l ∧ 0x1EB ∉ normalizeNFC l) ∧
      ∀ x ∈ normalizeNFC l, x ∈ l ∨ x = 0x65 ∨ x = 0x301 ∨ x = 0xE9 := by
  have hOD : ∀ x, x ∈ canonicalOrder (decompose l) →
      x ∈ l ∨ ((x = 0x65 ∨ x = 0x301) ∧ 0xE9 ∈ l) := by
    intro x hx
    rcases decompose_mem (canonicalOrder_mem hx) with h1 | h1 | h1
    · exact Or.inl h1
    · exact Or.inr h1
    · exact absurd h1.2 h1EB
  have h328OD : 0x328 ∉ canonicalOrder (decompose l) := by
    intro hx
    rcases hOD _ hx with h1 | h1
    · exact h328 h1
    · simp at h1
  constructor
  · constructor
    · intro hx
      rcases compose_mem hx with h1 | h1 | h1
      · exact h328OD h1
      · simp at h1
      · simp at h1
    · intro hx
      rcases compose_mem hx with h1 | h1 | h1
      · rcases hOD _ h1 with h2 | h2
        · exact h1EB h2
        · simp at h2
      · simp at h1
      · exact h328OD h1.2
  · intro x hx
    rcases compose_mem hx with h1 | h1 | h1
    · rcases hOD _ h1 with h2 | h2
      · exact Or.inl h2
      · rcases h2.1 with h3 | h3
        · exact Or.inr (Or.inl h3)
        · exact Or.inr (Or.inr (Or.inl h3))
    · exact Or.inr (Or.inr (Or.inr h1.1))
    · exact absurd h1.2 h328OD

/-! ## The reverse chain maps every code point to itself or to a plain one -/

theorem bold_rev_values_plain :
    ∀ p ∈ reversePairs boldMap, plainCp p.2 = true := by decide

theorem italic_rev_values_plain :
    ∀ p ∈ reversePairs italicMap, plainCp p.2 = true := by decide

theorem boldItalic_rev_values_plain :
    ∀ p ∈ reversePairs boldItalicMap, plainCp p.2 = true := by decide

theorem monospace_rev_values_plain :
    ∀ p ∈ reversePairs monospaceMap, plainCp p.2 = true := by decide

theorem script_rev_values_plain :
    ∀ p ∈ reversePairs scriptMap, plainCp p.2 = true := by decide

theorem fraktur_rev_values_plain :
    ∀ p ∈ reversePairs frakturMap, plainCp p.2 = true := by decide

theorem circled_rev_values_plain :
    ∀ p ∈ reversePairs circledMap, plainCp p.2 = true := by decide

theorem fullwidth_rev_values_plain :
    ∀ p ∈ reversePairs fullwidthMap, plainCp p.2 = true := by decide

theorem smallCaps_rev_values_plain :
    ∀ p ∈ reversePairs smallCapsMap, plainCp p.2 = true := by decide

theorem rev_values_plain :
    ∀ name ∈ styleNames, ∀ rm, REVERSE_CHAR_MAPS name = some rm →
      ∀ p ∈ rm, plainCp p.2 = true := by
  intro name hname rm hrm
  fin_cases hname
  · obtain rfl : rm = reversePairs boldMap := (Option.some.inj hrm).symm
    exact bold_rev_values_plain
  · obtain rfl : rm = reversePairs italicMap := (Option.some.inj hrm).symm
    exact italic_rev_values_plain
  · obtain rfl : rm = reversePairs boldItalicMap := (Option.some.inj hrm).symm
    exact boldItalic_rev_values_plain
  · obtain rfl : rm = reversePairs monospaceMap := (Option.some.inj hrm).symm
    exact monospace_rev_values_plain
  · obtain rfl : rm = reversePairs scriptMap := (Option.some.inj hrm).symm
    exact script_rev_values_plain
  · obtain rfl : rm = reversePairs frakturMap := (Option.some.inj hrm).symm
    exact fraktur_rev_values_plain
  · obtain rfl : rm = reversePairs circledMap := (Option.some.inj hrm).symm
    exact circled_rev_values_plain
  · obtain rfl : rm = reversePairs fullwidthMap := (Option.some.inj hrm).symm
    exact fullwidth_rev_values_plain
  · obtain rfl : rm = reversePairs smallCapsMap := (Option.some.inj hrm).symm
    exact smallCaps_rev_values_plain

theorem revChainAux_or_plain (names : List String)
    (hsub : ∀ n ∈ names, n ∈ styleNames) :
    ∀ b, revChainAux names b = b ∨ plainCp (revChainAux names b) = true := by
  induction names with
  | nil => intro b; exact Or.inl rfl
  | cons n rest ih =>
    intro b
    have hn := hsub n (List.mem_cons_self _ _)
    have hrest : ∀ m ∈ rest, m ∈ styleNames :=
      fun m hm => hsub m (List.mem_cons_of_mem _ hm)
    cases hrm : REVERSE_CHAR_MAPS n with
    | none =>
      have hstep : revChainAux (n :: rest) b = revChainAux rest b := by
        simp [revChainAux, revCpStep, hrm]
      rw [hstep]
      exact ih hrest b
    | some rm =>
      rw [revChainAux_cons n rest b rm hrm]
      cases hl : rm.lookup b with
      | none =>
        have hid : revCp rm b = b := by simp [revCp, hl]
        rw [hid]
        exact ih hrest b
      | some v =>
        have hv : plainCp v = true :=
          rev_values_plain n hn rm hrm (b, v) (lookup_mem hl)
        rw [revCp_hit hl, revChainSuffix rest hrest v hv]
        exact Or.inr hv

theorem revChain_or_plain (b : Cp) :
    revChain b = b ∨ plainCp (revChain b) = true := by
  rw [revChain_eq]
  exact revChainAux_or_plain styleNames (fun _ h => h) b

theorem plain_not_special {c : Nat} (h : plainCp c = true) :
    c ≠ 0x328 ∧ c ≠ 0x1EB ∧ c ≠ 0x336 ∧ c ≠ 0x332 := by
  simp only [plainCp, decide_eq_true_eq] at h
  exact ⟨by omega, by omega, by omega, by omega⟩

theorem revChain_301 : revChain 0x301 = 0x301 := by decide

theorem revChain_E9 : revChain 0xE9 = 0xE9 := by decide

/-- Every code point outside the three managed/ogonek marks is NFC-stable
in the model: the only code points with nonzero combining class are the
four marks and the only decomposables are the two stable composites. -/
theorem stable_of {c : Cp} (h1 : c ≠ 0x328) (h2 : c ≠ 0x332) (h3 : c ≠ 0x336) :
    nfcStable c = true := by
  by_cases h301 : c = 0x301
  · subst h301
    decide
  · by_cases hE9 : c = 0xE9
    · subst hE9
      decide
    · by_cases h1EB : c = 0x1EB
      · subst h1EB
        decide
      · have hc : ccc c = 0 := by
          simp only [ccc]
          rw [if_neg h301, if_neg h1, if_neg h2, if_neg h3]
        have hd : dec1 c = none := by
          simp only [dec1]
          rw [if_neg hE9, if_neg h1EB]
        simp [nfcStable, hc, hd]

/-! ## The composed string never contains an uncombined e-acute pair -/

theorem lastMem : ∀ {l : Ustr} {a : Cp}, l.getLast? = some a → a ∈ l := by
  intro l
  induction l with
  | nil => intro a h; simp at h
  | cons x t ih =>
    intro a h
    cases t with
    | nil =>
      simp at h
      simp [h]
    | cons y ys =>
      rw [List.getLast?_cons_cons] at h
      exact List.mem_cons_of_mem _ (ih h)

theorem noEA_append_of : ∀ (l1 l2 : Ustr), noEA l1 = true → noEA l2 = true →
    (∀ a b, l1.getLast? = some a → l2.head? = some b →
      ¬(a = 0x65 ∧ b = 0x301)) →
    noEA (l1 ++ l2) = true := by
  intro l1
  induction l1 with
  | nil => intro l2 _ h2 _; exact h2
  | cons x t ih =>
    intro l2 h1 h2 hb
    cases t with
    | nil =>
      cases l2 with
      | nil => exact h1
      | cons b t2 =>
        have hab : ¬(x = 0x65 ∧ b = 0x301) := hb x b (by simp) rfl
        have h3 : noEA (x :: b :: t2) =
            ((!decide (x = 0x65 ∧ b = 0x301)) && noEA (b :: t2)) := rfl
        show noEA (x :: b :: t2) = true
        rw [h3, h2]
        simp [hab]
    | cons y t2 =>
      have h1' : ((!decide (x = 0x65 ∧ y = 0x301)) && noEA (y :: t2)) = true := h1
      have hx : ¬(x = 0x65 ∧ y = 0x301) := by
        intro hc
        rw [hc.1, hc.2] at h1'
        simp at h1'
      have ht : noEA (y :: t2) = true := noEA_tail h1
      have hbt : ∀ a b, (y :: t2).getLast? = some a → l2.head? = some b →
          ¬(a = 0x65 ∧ b = 0x301) := by
        intro a b ha hbh
        exact hb a b (by rw [List.getLast?_cons_cons]; exact ha) hbh
      have hrec := ih l2 ht h2 hbt
      have hE : noEA (x :: y :: (t2 ++ l2)) =
          ((!decide (x = 0x65 ∧ y = 0x301)) && noEA (y :: (t2 ++ l2))) := rfl
      show noEA (x :: y :: (t2 ++ l2)) = true
      rw [hE]
      have hrec' : noEA (y :: (t2 ++ l2)) = true := hrec
      rw [hrec']
      simp [hx]

theorem noEA_cons_of_ne65 {L : Cp} (hL : L ≠ 0x65) {l : Ustr}
    (h : noEA l = true) : noEA (L :: l) = true := by
  cases l with
  | nil => rfl
  | cons b t =>
    have hE : noEA (L :: b :: t) =
        ((!decide (L = 0x65 ∧ b = 0x301)) && noEA (b :: t)) := rfl
    rw [hE, h]
    simp [hL]

theorem composeGo_head : ∀ (ms : Ustr) (L : Cp) (lc : Nat) (pend : Ustr),
    ∃ h t, composeGo L lc pend ms = h :: t ∧ (h = L ∨ h = 0xE9 ∨ h = 0x1EB) := by
  intro ms
  induction ms with
  | nil => intro L lc pend; exact ⟨L, pend, rfl, Or.inl rfl⟩
  | cons m ms ih =>
    intro L lc pend
    rw [composeGo]
    by_cases h0 : ccc m = 0
    · rw [if_pos h0]
      exact ⟨L, pend ++ composeGo m 0 [] ms, List.cons_append _ _ _, Or.inl rfl⟩
    · rw [if_neg h0]
      cases hcp : compPair L m with
      | some L2 =>
        simp only [hcp]
        by_cases hbl : lc < ccc m
        · rw [if_pos hbl]
          obtain ⟨h, t, heq, hh⟩ := ih L2 lc pend
          refine ⟨h, t, heq, ?_⟩
          rcases hh with rfl | hh
          · rcases compPair_inv hcp with ⟨_, _, hv⟩ | ⟨_, _, hv⟩
            · exact Or.inr (Or.inl hv)
            · exact Or.inr (Or.inr hv)
          · exact Or.inr hh
        · rw [if_neg hbl]
          obtain ⟨h, t, heq, hh⟩ := ih L (ccc m) (pend ++ [m])
          exact ⟨h, t, heq, hh⟩
      | none =>
        simp only [hcp]
        obtain ⟨h, t, heq, hh⟩ := ih L (ccc m) (pend ++ [m])
        exact ⟨h, t, heq, hh⟩

theorem noEA_composeGo : ∀ (ms : Ustr) (L : Cp) (lc : Nat) (pend : Ustr),
    (pend = [] → lc = 0) →
    noEA (L :: pend) = true →
    (∀ x ∈ pend, ccc x ≠ 0) →
    noEA (composeGo L lc pend ms) = true := by
  intro ms
  induction ms with
  | nil =>
    intro L lc pend _ hH _
    exact hH
  | cons m ms ih =>
    intro L lc pend hJ hH hM
    rw [composeGo]
    by_cases h0 : ccc m = 0
    · rw [if_pos h0]
      apply noEA_append_of (L :: pend) (composeGo m 0 [] ms) hH
        (ih m 0 [] (fun _ => rfl) rfl (fun x hx => absurd hx (List.not_mem_nil x)))
      intro a b _ hbh hab
      obtain ⟨h, t, heq, hh⟩ := composeGo_head ms m 0 []
      rw [heq, List.head?_cons] at hbh
      have hbe : h = b := Option.some.inj hbh
      rcases hh with rfl | rfl | rfl
      · rw [hbe, hab.2] at h0
        exact absurd h0 (by decide)
      · rw [hab.2] at hbe
        exact absurd hbe (by decide)
      · rw [hab.2] at hbe
        exact absurd hbe (by decide)
    · rw [if_neg h0]
      cases hcp : compPair L m with
      | some L2 =>
        simp only [hcp]
        by_cases hbl : lc < ccc m
        · rw [if_pos hbl]
          apply ih L2 lc pend hJ ?_ hM
          rcases compPair_inv hcp with ⟨_, _, hv⟩ | ⟨_, _, hv⟩
          · subst hv
            exact noEA_cons_of_ne65 (by decide) (noEA_tail hH)
          · subst hv
            exact noEA_cons_of_ne65 (by decide) (noEA_tail hH)
        · rw [if_neg hbl]
          apply ih L (ccc m) (pend ++ [m]) (fun hc => absurd hc (by simp)) ?_ ?_
          · rw [← List.cons_append]
            apply noEA_append_of (L :: pend) [m] hH rfl
            intro a b hla hhb hab
            rw [List.head?_cons] at hhb
            have hbm : b = m := (Option.some.inj hhb).symm
            cases hp : pend with
            | nil =>
              have hlc : lc = 0 := hJ hp
              have hm : m = 0x301 := hbm ▸ hab.2
              apply hbl
              rw [hlc, hm]
              decide
            | cons q qs =>
              rw [hp, List.getLast?_cons_cons] at hla
              have ham : a ∈ q :: qs := lastMem hla
              have hcc := hM a (by rw [hp]; exact ham)
              rw [hab.1] at hcc
              exact hcc (by decide)
          · intro x hx
            rcases List.mem_append.mp hx with hx | hx
            · exact hM x hx
            · simp at hx
              rw [hx]
              exact h0
      | none =>
        simp only [hcp]
        apply ih L (ccc m) (pend ++ [m]) (fun hc => absurd hc (by simp)) ?_ ?_
        · rw [← List.cons_append]
          apply noEA_append_of (L :: pend) [m] hH rfl
          intro a b hla hhb hab
          rw [List.head?_cons] at hhb
          have hbm : b = m := (Option.some.inj hhb).symm
          cases hp : pend with
          | nil =>
            rw [hp] at hla
            simp at hla
            have hL65 : L = 0x65 := hla ▸ hab.1
            have hm301 : m = 0x301 := hbm ▸ hab.2
            rw [hL65, hm301] at hcp
            exact absurd hcp (by decide)
          | cons q qs =>
            rw [hp, List.getLast?_cons_cons] at hla
            have ham : a ∈ q :: qs := lastMem hla
            have hcc := hM a (by rw [hp]; exact ham)
            rw [hab.1] at hcc
            exact hcc (by decide)
        · intro x hx
          rcases List.mem_append.mp hx with hx | hx
          · exact hM x hx
          · simp at hx
            rw [hx]
            exact h0

theorem noEA_compose : ∀ l : Ustr, noEA (compose l) = true := by
  intro l
  induction l with
  | nil => rfl
  | cons c rest ih =>
    rw [compose]
    by_cases h0 : ccc c = 0
    · rw [if_pos h0]
      exact noEA_composeGo rest c 0 [] (fun _ => rfl) rfl
        (fun x hx => absurd hx (List.not_mem_nil x))
    · rw [if_neg h0]
      apply noEA_cons_of_ne65 ?_ ih
      intro hc
      apply h0
      rw [hc]
      decide

theorem noEA_nfc (s : Ustr) : noEA (normalizeNFC s) = true := noEA_compose _

/-! ## toPlainText is the identity on its own NFC-stable fixed points -/

theorem toPlainText_fixed (R : Ustr)
    (hR : ∀ x ∈ R, x ≠ 0x328 ∧ x ≠ 0x1EB ∧ x ≠ 0x336 ∧ x ≠ 0x332 ∧
      revChain x = x) :
    toPlainText (normalizeNFC R) = normalizeNFC R := by
  have hR328 : (0x328 : Cp) ∉ R := fun hx => (hR _ hx).1 rfl
  have hR1EB : (0x1EB : Cp) ∉ R := fun hx => (hR _ hx).2.1 rfl
  obtain ⟨⟨hO328, hO1EB⟩, hOmem⟩ := nfc_mem_tame hR328 hR1EB
  have hfact : ∀ x ∈ normalizeNFC R, nfcStable x = true ∧ x ≠ 0x336 ∧
      x ≠ 0x332 ∧ revChain x = x := by
    intro x hx
    rcases hOmem x hx with hxR | h65 | h301 | hE9
    · obtain ⟨a328, a1EB, a336, a332, afix⟩ := hR x hxR
      exact ⟨stable_of a328 a332 a336, a336, a332, afix⟩
    · subst h65
      exact ⟨by decide, by decide, by decide, plain_revChain (by decide)⟩
    · subst h301
      exact ⟨by decide, by decide, by decide, revChain_301⟩
    · subst hE9
      exact ⟨by decide, by decide, by decide, revChain_E9⟩
  have hfix : normalizeNFC (normalizeNFC R) = normalizeNFC R :=
    nfc_fixed _ (fun c hc => (hfact c hc).1) (noEA_nfc R)
  by_cases hO : normalizeNFC R = []
  · rw [hO]
    rfl
  · have hkeep : mapGraphemes (normalizeNFC R) stripStyleMarks =
        normalizeNFC R := by
      rw [mapGraphemes_filter _ stripStyleMarks _ (fun cl _ => rfl)]
      apply List.filter_eq_self.mpr
      intro x hx
      simp [STRIKETHROUGH, UNDERLINE, (hfact x hx).2.1, (hfact x hx).2.2.1]
    have hid : ∀ x ∈ normalizeNFC R, revChainAux styleNames x = x := by
      intro x hx
      calc revChainAux styleNames x = revChain x := (revChain_eq x).symm
        _ = x := (hfact x hx).2.2.2
    rw [toPlainText_unfold _ hO, hfix, hkeep, revFold_eq_map styleNames,
      List.map_congr_left hid, List.map_id']
    exact hfix

theorem applyStyle_subst (t : Ustr) (ht : t ≠ []) (name : String) (sm : StyleMap)
    (h1 : name ≠ "strikethrough") (h2 : name ≠ "underline")
    (h3 : CHAR_MAPS name = some sm) :
    applyStyle t name =
      normalizeNFC (mapGraphemes (normalizeNFC t) (substCluster sm)) := by
  simp only [applyStyle, if_neg ht, h1, h2, h3, if_false, reduceIte]

/-! ## The claims -/

/-- C1: for plain ASCII/Greek text (no styled code points, no managed marks)
and any single substitution style, toPlainText inverts applyStyle exactly. -/
theorem c1_roundtrip_substitution (t : Ustr) (name : String)
    (hplain : ∀ c ∈ t, plainCp c = true) (hname : name ∈ styleNames) :
    toPlainText (applyStyle t name) = t := by
  by_cases ht : t = []
  · subst ht
    have h1 : applyStyle [] name = [] := by simp [applyStyle]
    rw [h1]
    rfl
  · fin_cases hname
    · rw [applyStyle_subst t ht "bold" boldMap (by decide) (by decide) rfl]
      exact c1_core t boldMap ht hplain bold_values_good revChain_value_bold
    · rw [applyStyle_subst t ht "italic" italicMap (by decide) (by decide) rfl]
      exact c1_core t italicMap ht hplain italic_values_good revChain_value_italic
    · rw [applyStyle_subst t ht "boldItalic" boldItalicMap (by decide) (by decide) rfl]
      exact c1_core t boldItalicMap ht hplain boldItalic_values_good
        revChain_value_boldItalic
    · rw [applyStyle_subst t ht "monospace" monospaceMap (by decide) (by decide) rfl]
      exact c1_core t monospaceMap ht hplain monospace_values_good
        revChain_value_monospace
    · rw [applyStyle_subst t ht "script" scriptMap (by decide) (by decide) rfl]
      exact c1_core t scriptMap ht hplain script_values_good revChain_value_script
    · rw [applyStyle_subst t ht "fraktur" frakturMap (by decide) (by decide) rfl]
      exact c1_core t frakturMap ht hplain fraktur_values_good revChain_value_fraktur
    · rw [applyStyle_subst t ht "circled" circledMap (by decide) (by decide) rfl]
      exact c1_core t circledMap ht hplain circled_values_good revChain_value_circled
    · rw [applyStyle_subst t ht "fullwidth" fullwidthMap (by decide) (by decide) rfl]
      exact c1_core t fullwidthMap ht hplain fullwidth_values_good
        revChain_value_fullwidth
    · rw [applyStyle_subst t ht "smallCaps" smallCapsMap (by decide) (by decide) rfl]
      exact c1_core t smallCapsMap ht hplain smallCaps_values_good
        revChain_value_smallCaps

/-- C1 witness: the round trip at the concrete text Test with the bold
style. -/
theorem c1_witness :
    ((∀ c ∈ ([0x54, 0x65, 0x73, 0x74] : Ustr), plainCp c = true) ∧
        "bold" ∈ styleNames) ∧
      toPlainText (applyStyle [0x54, 0x65, 0x73, 0x74] "bold") =
        [0x54, 0x65, 0x73, 0x74] :=
  ⟨⟨by decide, by decide⟩,
    c1_roundtrip_substitution [0x54, 0x65, 0x73, 0x74] "bold" (by decide) (by decide)⟩

/-- C7: concatenating the clusters returned by segmentGraphemes yields
exactly the input text, and the empty string yields the empty sequence. -/
theorem c7_segmentation_reconstructs :
    (∀ s : Ustr, (segmentGraphemes s).flatten = s) ∧
      segmentGraphemes ([] : Ustr) = [] :=
  ⟨segmentGraphemes_flatten, rfl⟩

/-- C6: addStyleMark is idempotent for each managed mark. -/
theorem c6_addStyleMark_idempotent (cl : Ustr) (m : Cp)
    (_hm : m = STRIKETHROUGH ∨ m = UNDERLINE) :
    addStyleMark (addStyleMark cl m) m = addStyleMark cl m := by
  by_cases h0 : cl = []
  · simp [addStyleMark, h0]
  · by_cases h1 : hasStyleMark cl m
    · simp [addStyleMark, h0, h1]
    · have h2 : hasStyleMark (cl ++ [m]) m = true := by
        simp [hasStyleMark, List.contains, List.elem_eq_mem]
      simp [addStyleMark, h0, h1, h2]

/-- C6 witness: idempotence at the concrete cluster a with the
strikethrough mark. -/
theorem c6_witness :
    ((STRIKETHROUGH : Cp) = STRIKETHROUGH ∨ (STRIKETHROUGH : Cp) = UNDERLINE) ∧
      addStyleMark (addStyleMark [0x61] STRIKETHROUGH) STRIKETHROUGH =
        addStyleMark [0x61] STRIKETHROUGH :=
  ⟨Or.inl rfl, c6_addStyleMark_idempotent [0x61] STRIKETHROUGH (Or.inl rfl)⟩

/-- C5: removeStyle on é followed by the combining strikethrough mark
removes the managed mark and preserves the acute accent, returning text
NFC-equal to é. -/
theorem c5_accent_preserved :
    removeStyle [0xE9, 0x336] "strikethrough" = [0xE9] ∧
      normalizeNFC [0xE9] = [0xE9] := by
  constructor <;> rfl

/-- C4: for nonempty text and a style identifier that is none of the eleven
known styles, applyStyle and removeStyle return the NFC-normalized input
unchanged (both functions are total, so no error can be raised). -/
theorem c4_unknown_style_identity (text : Ustr) (style : String)
    (htext : text ≠ []) (hstyle : style ∉ allStyleNames) :
    applyStyle text style = normalizeNFC text ∧
      removeStyle text style = normalizeNFC text := by
  simp only [allStyleNames, styleNames, List.append_eq, List.mem_append,
    List.mem_cons, List.not_mem_nil, or_false, not_or] at hstyle
  obtain ⟨⟨h1, h2, h3, h4, h5, h6, h7, h8, h9⟩, h10, h11⟩ := hstyle
  have hmap : CHAR_MAPS style = none := by
    simp [CHAR_MAPS, h1, h2, h3, h4, h5, h6, h7, h8, h9]
  have hrev : REVERSE_CHAR_MAPS style = none := by
    simp [REVERSE_CHAR_MAPS, hmap]
  constructor
  · simp [applyStyle, htext, h10, h11, hmap]
  · simp [removeStyle, htext, h10, h11, hrev]

/-- C4 witness: the single character a with the unknown style wavy. -/
theorem c4_witness :
    ([0x61] : Ustr) ≠ [] ∧ "wavy" ∉ allStyleNames ∧
      (applyStyle [0x61] "wavy" = normalizeNFC [0x61] ∧
        removeStyle [0x61] "wavy" = normalizeNFC [0x61]) :=
  ⟨by decide, by decide, c4_unknown_style_identity [0x61] "wavy" (by decide) (by decide)⟩

/-- C2 fails as stated: the text consisting of the lone combining
strikethrough mark has no testable clusters, yet detectStyles reports the
strikethrough flag true (the combining-mark flags are substring checks that
run before the testable-cluster filter). -/
theorem c2_counterexample :
    testableClusters [0x336] = [] ∧
      (detectStyles [0x336]).strikethrough = true := by
  constructor <;> rfl

/-- C2 as amended: when the testable clusters are empty, all nine
substitution-style flags are false, and if the text additionally contains
neither managed mark then all eleven flags are false. -/
theorem c2_no_testable_clusters (text : Ustr)
    (h : testableClusters text = []) :
    ((detectStyles text).bold = false ∧ (detectStyles text).italic = false ∧
      (detectStyles text).boldItalic = false ∧
      (detectStyles text).monospace = false ∧
      (detectStyles text).script = false ∧
      (detectStyles text).fraktur = false ∧
      (detectStyles text).circled = false ∧
      (detectStyles text).fullwidth = false ∧
      (detectStyles text).smallCaps = false) ∧
    (text.contains STRIKETHROUGH = false → text.contains UNDERLINE = false →
      detectStyles text = allFalse) := by
  by_cases htext : text = []
  · subst htext
    exact ⟨⟨rfl, rfl, rfl, rfl, rfl, rfl, rfl, rfl, rfl⟩, fun _ _ => rfl⟩
  · have hd : detectStyles text =
        { allFalse with strikethrough := text.contains STRIKETHROUGH,
                        underline := text.contains UNDERLINE } := by
      simp [detectStyles, htext, h]
    rw [hd]
    refine ⟨⟨rfl, rfl, rfl, rfl, rfl, rfl, rfl, rfl, rfl⟩, ?_⟩
    intro hs hu
    rw [hs, hu]
    rfl

/-- C2 witness: a single space has no testable clusters and no marks, so
every flag is false. -/
theorem c2_witness :
    testableClusters [0x20] = [] ∧
      (detectStyles [0x20]).bold = false ∧ detectStyles [0x20] = allFalse := by
  have h := c2_no_testable_clusters [0x20] (by rfl)
  exact ⟨by rfl, h.1.1, h.2 (by rfl) (by rfl)⟩

set_option maxRecDepth 20000 in
/-- C9: per substitution style, the union of the five category maps is
injective (no styled code point arises from two distinct plain characters),
and the derived reverse map sends each styled code point back to exactly its
plain source. -/
theorem c9_forward_maps_injective :
    ∀ name ∈ styleNames, ∀ sm, CHAR_MAPS name = some sm →
      ((forwardPairs sm).Pairwise (fun p q => p.2 = q.2 → p.1 = q.1) ∧
        ∀ p ∈ forwardPairs sm, (reversePairs sm).lookup p.2 = some p.1) := by
  intro name hname sm hsm
  fin_cases hname <;>
    · simp only [CHAR_MAPS, String.reduceEq, reduceIte, Option.some.injEq] at hsm
      subst hsm
      exact ⟨by decide, by decide⟩

/-- C9 witness: instantiated at the bold style. -/
theorem c9_witness :
    ("bold" ∈ styleNames ∧ CHAR_MAPS "bold" = some boldMap) ∧
      ((forwardPairs boldMap).Pairwise (fun p q => p.2 = q.2 → p.1 = q.1) ∧
        ∀ p ∈ forwardPairs boldMap,
          (reversePairs boldMap).lookup p.2 = some p.1) :=
  ⟨⟨by decide, rfl⟩, c9_forward_maps_injective "bold" (by decide) boldMap rfl⟩

/-- C3: toggling italic on bold text merges into boldItalic: the result is
detected with boldItalic true, bold false and italic false. -/
theorem c3_toggle_italic_on_bold :
    (detectStyles (toggleStyle (applyStyle [0x54, 0x65, 0x73, 0x74] "bold")
        "italic")).boldItalic = true ∧
      (detectStyles (toggleStyle (applyStyle [0x54, 0x65, 0x73, 0x74] "bold")
        "italic")).bold = false ∧
      (detectStyles (toggleStyle (applyStyle [0x54, 0x65, 0x73, 0x74] "bold")
        "italic")).italic = false := by
  refine ⟨?_, ?_, ?_⟩ <;> rfl

/-- C8: for each combining-mark style, applyStyle leaves every grapheme
cluster that consists entirely of whitespace unchanged (the per-cluster
transform is the identity on such clusters of the NFC input); in particular
the second grapheme of applyStyle on a space b with strikethrough is a plain
space while the letter clusters gain U+0336. -/
theorem c8_whitespace_skip :
    (∀ (text : Ustr) (m : Cp), m = STRIKETHROUGH ∨ m = UNDERLINE →
      ∀ cl ∈ segmentGraphemes (normalizeNFC text), cl.all isWS →
        markClusterWith m cl = cl) ∧
      (segmentGraphemes (applyStyle [0x61, 0x20, 0x62] "strikethrough"))[1]? =
        some [0x20] ∧
      applyStyle [0x61, 0x20, 0x62] "strikethrough" =
        [0x61, 0x336, 0x20, 0x62, 0x336] := by
  refine ⟨?_, rfl, rfl⟩
  intro text m _hm cl hcl hws
  have hne := segmentGraphemes_ne_nil hcl
  have hall : clusterAllWS cl = true := by
    simp [clusterAllWS, hws, List.isEmpty_iff, hne]
  simp [markClusterWith, hall]

/-- C8 witness: the space cluster of the NFC input a space b is untouched by
the strikethrough per-cluster transform. -/
theorem c8_witness :
    (((STRIKETHROUGH : Cp) = STRIKETHROUGH ∨ (STRIKETHROUGH : Cp) = UNDERLINE) ∧
      [0x20] ∈ segmentGraphemes (normalizeNFC [0x61, 0x20, 0x62]) ∧
      ([0x20] : Ustr).all isWS = true) ∧
      markClusterWith STRIKETHROUGH [0x20] = [0x20] :=
  ⟨⟨Or.inl rfl, by decide, by decide⟩,
    c8_whitespace_skip.1 [0x61, 0x20, 0x62] STRIKETHROUGH (Or.inl rfl) [0x20]
      (by decide) (by decide)⟩

/-- C10 counterexample: toPlainText is not idempotent on every string. On a
bold o followed by a combining ogonek U+0328, the first pass maps the bold o
back to o, and re-normalization composes o with the ogonek into U+01EB; the
second pass then hits the smallCaps reverse map, which sends U+01EB to q. -/
theorem c10_counterexample :
    toPlainText (toPlainText [0x1D5FC, 0x328]) ≠
      toPlainText [0x1D5FC, 0x328] := by decide

/-- C10 (amended): toPlainText is idempotent on every string that contains
neither the combining ogonek U+0328 nor its precomposed o-with-ogonek U+01EB
(the one composite character a reverse map keys on). -/
theorem c10_idempotent_on_ogonek_free (t : Ustr) (hog : ogonekFree t = true) :
    toPlainText (toPlainText t) = toPlainText t := by
  by_cases ht : t = []
  · subst ht
    rfl
  · simp only [ogonekFree] at hog
    have hall := List.all_eq_true.mp hog
    have h328t : (0x328 : Cp) ∉ t := by
      intro hx
      have h1 := hall _ hx
      simp at h1
    have h1EBt : (0x1EB : Cp) ∉ t := by
      intro hx
      have h1 := hall _ hx
      simp at h1
    obtain ⟨⟨hN328, hN1EB⟩, _⟩ := nfc_mem_tame h328t h1EBt
    have hTP : toPlainText t = normalizeNFC (((normalizeNFC t).filter
        (fun c => !(c = STRIKETHROUGH ∨ c = UNDERLINE))).map
          (revChainAux styleNames)) := by
      rw [toPlainText_unfold t ht,
        mapGraphemes_filter _ stripStyleMarks _ (fun cl _ => rfl),
        revFold_eq_map styleNames]
    rw [hTP]
    apply toPlainText_fixed
    intro x hx
    obtain ⟨b, hbF, rfl⟩ := List.mem_map.mp hx
    have hbmem := List.mem_filter.mp hbF
    have hbN := hbmem.1
    have hb' := hbmem.2
    simp only [STRIKETHROUGH, UNDERLINE, Bool.not_eq_eq_eq_not, Bool.not_true,
      decide_eq_false_iff_not, not_or] at hb'
    have hb328 : b ≠ 0x328 := fun he => hN328 (he ▸ hbN)
    have hb1EB : b ≠ 0x1EB := fun he => hN1EB (he ▸ hbN)
    rw [← revChain_eq]
    rcases revChain_or_plain b with hid | hpl
    · rw [hid]
      exact ⟨hb328, hb1EB, hb'.1, hb'.2, hid⟩
    · obtain ⟨p328, p1EB, p336, p332⟩ := plain_not_special hpl
      exact ⟨p328, p1EB, p336, p332, plain_revChain hpl⟩

/-- C10 witness: idempotence at a bold o followed by a plain a, an
ogonek-free styled string. -/
theorem c10_witness :
    ogonekFree [0x1D5FC, 0x61] = true ∧
      toPlainText (toPlainText [0x1D5FC, 0x61]) =
        toPlainText [0x1D5FC, 0x61] :=
  ⟨by decide, c10_idempotent_on_ogonek_free [0x1D5FC, 0x61] (by decide)⟩

end Mojibake
